import Mathlib

/-!
# gofmt-group: grouping of same-typed signature fields

A shallow embedding of `main.go`: the field grouper `mergeSameTypeFields`, the
key function `typeString`, the signature rewrite `processFuncType`, the
traversal `rewriteFuncParams` and the substitution at the end of
`customFprint`, together with the part of `go/ast` they touch (`Ident`,
`Field`, `FieldList`, `FuncType`, the nodes of the tree).  The standard-library
pretty printer is not part of the program: `printer.Fprint` is a parameter
`Fprint : Expr → String` of every definition that renders a type expression,
with `Expr` an arbitrary type, and the emitter `cfg.Fprint` is a parameter of
`customFprint`.
-/

namespace GofmtGroup

/-! ## The slice of `go/token` and `go/ast` used by the program -/

/-- A source position, `token.Pos` (a Go `int`). -/
abbrev Pos := Int

/-- The zero position `token.NoPos`. -/
def NoPos : Pos := 0

/-- An identifier node, `ast.Ident`. -/
structure Ident where
  NamePos : Pos := NoPos
  Name : String
deriving DecidableEq, Repr

/-- One comment, `ast.Comment`. -/
structure Comment where
  Slash : Pos := NoPos
  Text : String
deriving DecidableEq, Repr

/-- A sequence of comments, `ast.CommentGroup`. -/
structure CommentGroup where
  List : List Comment
deriving DecidableEq, Repr

/-- A literal node, `ast.BasicLit`; `Kind` is the token code. -/
structure BasicLit where
  ValuePos : Pos := NoPos
  Kind : Nat
  Value : String
deriving DecidableEq, Repr

/-- A parameter or result declaration, `ast.Field`.  The defaults are the Go
zero values, so a structure instance that gives only `Names` and `Typ` is the
composite literal `&ast.Field{Names: ..., Type: ...}`; the Go field `Type` is
spelled `Typ`, `Type` being reserved. -/
structure Field (Expr : Type) where
  Doc : Option CommentGroup := none
  Names : List Ident := []
  Typ : Expr
  Tag : Option BasicLit := none
  Comment : Option CommentGroup := none
deriving DecidableEq, Repr

/-- A parenthesised list of fields, `ast.FieldList`. -/
structure FieldList (Expr : Type) where
  Opening : Pos := NoPos
  List : List (Field Expr)
  Closing : Pos := NoPos
deriving DecidableEq, Repr

/-- A signature, `ast.FuncType`; `none` is a nil `*ast.FieldList`. -/
structure FuncType (Expr : Type) where
  Func : Pos := NoPos
  TypeParams : Option (FieldList Expr) := none
  Params : Option (FieldList Expr)
  Results : Option (FieldList Expr)
deriving DecidableEq, Repr

variable {Expr : Type}

/-! ## The program -/

/-- The merge key of `main.go`: the text that `printer.Fprint` writes for a
type expression into a fresh buffer. -/
def typeString (Fprint : Expr → String) (expr : Expr) : String :=
  Fprint expr

/-- The inner loop `for j < len(fields)` of `mergeSameTypeFields`, as a
function of its state `(j, names)`; the result is the state on exit. -/
def mergeSameTypeFields.extend (Fprint : Expr → String) (fields : List (Field Expr))
    (field : Field Expr) (j : Nat) (names : List Ident) : Nat × List Ident :=
  if h : j < fields.length then
    let next := fields[j]
    if typeString Fprint field.Typ = typeString Fprint next.Typ then
      mergeSameTypeFields.extend Fprint fields field (j + 1) (names ++ next.Names)
    else
      (j, names)
  else
    (j, names)
termination_by fields.length - j

/-- The outer loop `for i := 0; i < len(fields);` of `mergeSameTypeFields`, as
a function of its state `(i, newList)`; the result is `newList` on exit. -/
def mergeSameTypeFields.loop (Fprint : Expr → String) (fields : List (Field Expr))
    (i : Nat) (newList : List (Field Expr)) : List (Field Expr) :=
  if h : i < fields.length then
    let field := fields[i]
    let r := mergeSameTypeFields.extend Fprint fields field (i + 1) ([] ++ field.Names)
    mergeSameTypeFields.loop Fprint fields r.1
      (newList ++ [{ Names := r.2, Typ := field.Typ }])
  else
    newList
termination_by fields.length - i
decreasing_by
  have key : ∀ (n j : Nat) (names : List Ident), fields.length - j = n →
      j ≤ (mergeSameTypeFields.extend Fprint fields fields[i] j names).1 := by
    intro n
    induction n with
    | zero =>
      intro j names hn
      rw [mergeSameTypeFields.extend]
      have : ¬ j < fields.length := by omega
      simp [this]
    | succ n ih =>
      intro j names hn
      rw [mergeSameTypeFields.extend]
      split
      · dsimp only
        split
        · have := ih (j + 1) (names ++ fields[j].Names) (by omega)
          omega
        · exact Nat.le_refl j
      · exact Nat.le_refl j
  have := key _ (i + 1) ([] ++ fields[i].Names) rfl
  omega

/-- The function `mergeSameTypeFields` of `main.go`. -/
def mergeSameTypeFields (Fprint : Expr → String) (fields : List (Field Expr)) :
    List (Field Expr) :=
  if fields.length = 0 then
    fields
  else
    mergeSameTypeFields.loop Fprint fields 0 []

/-- The function `processFuncType` of `main.go`; the in-place update of the
signature is returned as the new signature. -/
def processFuncType (Fprint : Expr → String) (funcType : FuncType Expr) : FuncType Expr :=
  let funcType : FuncType Expr :=
    match funcType.Params with
    | some params =>
      { funcType with
        Params := some { params with List := mergeSameTypeFields Fprint params.List } }
    | none => funcType
  match funcType.Results with
  | some results =>
    let results : FieldList Expr :=
      if results.List.length = 1 ∧ (results.List.head?.map fun f => f.Names.length) = some 0 then
        { results with Opening := NoPos, Closing := NoPos }
      else
        results
    { funcType with
      Results := some { results with List := mergeSameTypeFields Fprint results.List } }
  | none => funcType

/-! ## The normalizer of `customFprint`

`customFprint` passes the emitted text through
`regexp.MustCompile(...).ReplaceAllString(text, ") $1 {")` for the pattern
`\) \(([^,\(\)]+)\) \{`.  The text is read as its sequence of characters.  The
pattern is the literal `) (`, one or more characters of the class `[^,\(\)]`
as group 1, and the literal `) {`; the class excludes `)`, so a match at a
position can only take the longest run of class characters there.
`ReplaceAllString` replaces the successive non-overlapping matches found from
left to right and copies the text between them. -/

/-- The character class `[^,\(\)]` of the pattern. -/
def reClass (c : Char) : Bool :=
  c != ',' && c != '(' && c != ')'

/-- The match of the pattern that starts at the first character of the text, if
there is one: group 1 and the text after the match. -/
def reMatchAt : List Char → Option (List Char × List Char)
  | c0 :: c1 :: c2 :: t =>
    if c0 = ')' ∧ c1 = ' ' ∧ c2 = '(' then
      match t.dropWhile reClass with
      | d0 :: d1 :: d2 :: rest =>
        if t.takeWhile reClass ≠ [] ∧ d0 = ')' ∧ d1 = ' ' ∧ d2 = '{' then
          some (t.takeWhile reClass, rest)
        else
          none
      | _ => none
    else
      none
  | _ => none

/-- The substitution `re.ReplaceAllString(text, ") $1 {")` on the characters of
the text: at a match the replacement is written and the scan goes on after the
match, otherwise one character is copied. -/
def replaceAll (s : List Char) : List Char :=
  match _h : reMatchAt s with
  | some (g, rest) => [')', ' '] ++ g ++ [' ', '{'] ++ replaceAll rest
  | none =>
    match s with
    | [] => []
    | c :: cs => c :: replaceAll cs
termination_by s.length
decreasing_by
  · have key : ∀ (s g rest : List Char), reMatchAt s = some (g, rest) →
        rest.length < s.length := by
      intro s g rest h
      unfold reMatchAt at h
      split at h
      · next c0 c1 c2 t =>
        split at h
        · split at h
          · next d0 d1 d2 rest2 hd =>
            split at h
            · simp only [Option.some.injEq, Prod.mk.injEq] at h
              have h1 : (t.dropWhile reClass).length ≤ t.length :=
                (List.dropWhile_suffix reClass).length_le
              rw [hd, h.2] at h1
              simp only [List.length_cons] at h1 ⊢
              omega
            · cases h
          · cases h
        · cases h
      · cases h
    exact key _ _ _ (by assumption)
  · simp

/-- The substitution of `customFprint` on a string. -/
def replaceAllString (src : String) : String :=
  String.mk (replaceAll src.data)

/-- The function `customFprint` of `main.go` as a function from the tree to
the text written to `dst`; `cfgFprint` is the emitter `cfg.Fprint`, whose error
is returned. -/
def customFprint {File Err : Type} (cfgFprint : File → Except Err String) (file : File) :
    Except Err String :=
  match cfgFprint file with
  | Except.error err => Except.error err
  | Except.ok buf => Except.ok (replaceAllString buf)

/-! ## The syntax tree and `rewriteFuncParams`

`rewriteFuncParams` hands every node of the file to a closure through
`ast.Inspect`.  The closure looks at two kinds of node only, so the tree is
modelled with these two kinds, the function type, and one constructor for all
other kinds of node with their child nodes in the order of `ast.Walk`.  The type
expressions inside a signature are nodes again. -/

/-- A node of the syntax tree, `ast.Node`: a function declaration
`*ast.FuncDecl`, an interface type `*ast.InterfaceType`, a function type
`*ast.FuncType` in the place of an expression, or any other node. -/
inductive Node where
  | funcDecl (Doc : Option CommentGroup) (Recv : Option (FieldList Node)) (Name : Ident)
      (Typ : FuncType Node) (Body : Option Node)
  | interfaceType (Interface : Pos) (Methods : FieldList Node) (Incomplete : Bool)
  | funcType (Typ : FuncType Node)
  | other (kind : String) (children : List Node)

/-- Apply `g` to the type expression of a field. -/
def Field.mapType {α β : Type} (g : α → β) (f : Field α) : Field β :=
  { Doc := f.Doc, Names := f.Names, Typ := g f.Typ, Tag := f.Tag, Comment := f.Comment }

/-- Apply `g` to the type expression of every field of a field list. -/
def FieldList.mapTypes {α β : Type} (g : α → β) (fl : FieldList α) : FieldList β :=
  { Opening := fl.Opening, List := fl.List.map (Field.mapType g), Closing := fl.Closing }

/-- Apply `g` to the type expression of every field of a signature. -/
def FuncType.mapTypes {α β : Type} (g : α → β) (ft : FuncType α) : FuncType β :=
  { Func := ft.Func, TypeParams := ft.TypeParams.map (FieldList.mapTypes g),
    Params := ft.Params.map (FieldList.mapTypes g),
    Results := ft.Results.map (FieldList.mapTypes g) }

/-- Apply `g` to every node that `ast.Walk` descends to from the given node,
passing through the field lists and fields in between. -/
def Node.mapChildren (g : Node → Node) : Node → Node
  | Node.funcDecl doc recv name typ body =>
    Node.funcDecl doc (recv.map (FieldList.mapTypes g)) name (typ.mapTypes g) (body.map g)
  | Node.interfaceType pos methods incomplete =>
    Node.interfaceType pos (methods.mapTypes g) incomplete
  | Node.funcType typ => Node.funcType (typ.mapTypes g)
  | Node.other kind children => Node.other kind (children.map g)

/-- The update of one interface member by the closure of `rewriteFuncParams`:
`if funcType, ok := method.Type.(*ast.FuncType); ok { processFuncType(funcType) }`. -/
def rewriteFuncParams.method (Fprint : Node → String) (method : Field Node) : Field Node :=
  match method.Typ with
  | Node.funcType funcType => { method with Typ := Node.funcType (processFuncType Fprint funcType) }
  | _ => method

/-- The closure that `rewriteFuncParams` passes to `ast.Inspect`, as the update
it makes to the node it is called on; it always returns `true`. -/
def rewriteFuncParams.visit (Fprint : Node → String) : Node → Node
  | Node.funcDecl doc recv name typ body =>
    Node.funcDecl doc recv name (processFuncType Fprint typ) body
  | Node.interfaceType pos methods incomplete =>
    Node.interfaceType pos
      { methods with List := methods.List.map (rewriteFuncParams.method Fprint) } incomplete
  | node => node

/-- The traversal `ast.Inspect` for a closure that always returns `true`: the
closure is called on the node, then the children of the node, as it is after
the call, are traversed.  `fuel` bounds the depth of the descent. -/
def Inspect (f : Node → Node) : Nat → Node → Node
  | 0, node => node
  | fuel + 1, node => (f node).mapChildren (Inspect f fuel)

mutual
/-- The number of nodes of a tree. -/
def Node.size : Node → Nat
  | Node.funcDecl _ recv _ typ body =>
    1 + sizeOptFieldList recv + sizeFuncType typ + sizeOptNode body
  | Node.interfaceType _ methods _ => 1 + sizeFieldList methods
  | Node.funcType typ => 1 + sizeFuncType typ
  | Node.other _ children => 1 + sizeNodes children
/-- The number of nodes of a list of trees. -/
def sizeNodes : List Node → Nat
  | [] => 0
  | node :: nodes => node.size + sizeNodes nodes
/-- The number of nodes of an optional tree. -/
def sizeOptNode : Option Node → Nat
  | none => 0
  | some node => node.size
/-- The number of nodes in the type expressions of a signature. -/
def sizeFuncType : FuncType Node → Nat
  | ⟨_, typeParams, params, results⟩ =>
    sizeOptFieldList typeParams + sizeOptFieldList params + sizeOptFieldList results
/-- The number of nodes in the type expressions of an optional field list. -/
def sizeOptFieldList : Option (FieldList Node) → Nat
  | none => 0
  | some fl => sizeFieldList fl
/-- The number of nodes in the type expressions of a field list. -/
def sizeFieldList : FieldList Node → Nat
  | ⟨_, fields, _⟩ => sizeFields fields
/-- The number of nodes in the type expressions of a list of fields. -/
def sizeFields : List (Field Node) → Nat
  | [] => 0
  | field :: fields => sizeField field + sizeFields fields
/-- The number of nodes in the type expression of a field. -/
def sizeField : Field Node → Nat
  | ⟨_, _, typ, _, _⟩ => typ.size
end

/-- The function `rewriteFuncParams` of `main.go`; the in-place update of the
tree is returned as the new tree.  The descent is as deep as the tree, for
which its number of nodes is enough. -/
def rewriteFuncParams (Fprint : Node → String) (file : Node) : Node :=
  Inspect (rewriteFuncParams.visit Fprint) file.size file

/-- The member of an interface is function-typed: its type is an
`*ast.FuncType`. -/
def isFuncTyped (method : Field Node) : Bool :=
  match method.Typ with
  | Node.funcType _ => true
  | _ => false

mutual
/-- The tree contains a node that the closure of `rewriteFuncParams` acts on: a
function declaration, or an interface type with a function-typed member. -/
def Node.hasTarget : Node → Bool
  | Node.funcDecl _ _ _ _ _ => true
  | Node.interfaceType _ ⟨_, fields, _⟩ _ => fields.any isFuncTyped || hasTargetFields fields
  | Node.funcType typ => hasTargetFuncType typ
  | Node.other _ children => hasTargetNodes children
/-- One of the trees contains a node that the closure acts on. -/
def hasTargetNodes : List Node → Bool
  | [] => false
  | node :: nodes => node.hasTarget || hasTargetNodes nodes
/-- A type expression of the signature contains a node that the closure acts
on. -/
def hasTargetFuncType : FuncType Node → Bool
  | ⟨_, typeParams, params, results⟩ =>
    hasTargetOptFieldList typeParams || hasTargetOptFieldList params ||
      hasTargetOptFieldList results
/-- A type expression of the optional field list contains a node that the
closure acts on. -/
def hasTargetOptFieldList : Option (FieldList Node) → Bool
  | none => false
  | some ⟨_, fields, _⟩ => hasTargetFields fields
/-- A type expression of the fields contains a node that the closure acts
on. -/
def hasTargetFields : List (Field Node) → Bool
  | [] => false
  | ⟨_, _, typ, _, _⟩ :: fields => typ.hasTarget || hasTargetFields fields
end

/-- An identifier or qualified identifier in the place of a type, a node
without children. -/
def identNode (text : String) : Node :=
  Node.other text []

/-- A renderer for the trees of the scenarios: an identifier is rendered as its
text. -/
def renderIdent : Node → String
  | Node.other text [] => text
  | _ => ""

/-- The interface `interface { io.Reader; Swap(int, int) (int, int) }`: an
embedded interface and a method with unnamed parameters and results. -/
def embeddingInterface : Node :=
  Node.interfaceType 1
    { Opening := 11,
      List :=
        [{ Typ := identNode "io.Reader" },
         { Names := [{ Name := "Swap" }],
           Typ := Node.funcType
            { Params := some
                { Opening := 5,
                  List := [{ Typ := identNode "int" }, { Typ := identNode "int" }],
                  Closing := 14 },
              Results := some
                { Opening := 16,
                  List := [{ Typ := identNode "int" }, { Typ := identNode "int" }],
                  Closing := 25 } } }],
      Closing := 60 }
    false

/-! ## The reference grouping of the specification

"Maximal run merge: collapsing every maximal consecutive sequence of elements
sharing a key into a single combined element."  The runs are those of the
library function `List.splitBy` for the relation "equal type text". -/

/-- The maximal runs of adjacent fields whose type text is equal. -/
def maximalRuns (Fprint : Expr → String) (l : List (Field Expr)) : List (List (Field Expr)) :=
  l.splitBy fun a b => decide (typeString Fprint a.Typ = typeString Fprint b.Typ)

/-- The field a non-empty run is collapsed to: the type of the run's first
field, and the names of the run's fields concatenated in order. -/
def mergeRun (run : List (Field Expr)) (h : run ≠ []) : Field Expr :=
  { Names := (run.map Field.Names).flatten, Typ := (run.head h).Typ }

/-- The reference maximal run merge: every maximal run becomes one field. -/
def maximalRunMerge (Fprint : Expr → String) (l : List (Field Expr)) : List (Field Expr) :=
  (maximalRuns Fprint l).pmap mergeRun fun _ hm => List.ne_nil_of_mem_splitBy _ hm

/-- The number of values a field list declares (`ast.FieldList.NumFields`): a
field without names counts once, a field with names once per name. -/
def numValues (l : List (Field Expr)) : Nat :=
  (l.map fun f => if f.Names.length = 0 then 1 else f.Names.length).sum

/-- The number of values declared by an optional field list; a nil list
declares none. -/
def numValuesOpt : Option (FieldList Expr) → Nat
  | none => 0
  | some fl => numValues fl.List

/-- The names and type of a field, without its comments and tag. -/
def Field.namesAndType (f : Field Expr) : List Ident × Expr :=
  (f.Names, f.Typ)

/-- No two adjacent fields of the list have the same type text. -/
def NoAdjacentSameType (Fprint : Expr → String) (l : List (Field Expr)) : Prop :=
  l.Chain' fun a b => typeString Fprint a.Typ ≠ typeString Fprint b.Typ

/-! ## Signatures of the scenarios

Type expressions are given by their text and rendered by the identity. -/

/-- A field of the scenarios: the given names, all of the type written `ty`. -/
def mkField (names : List String) (ty : String) : Field String :=
  { Names := names.map fun n => { Name := n }, Typ := ty }

/-- The parameter list `(a int, b int, c string, d string)`. -/
def ungroupedParams : List (Field String) :=
  [mkField ["a"] "int", mkField ["b"] "int", mkField ["c"] "string", mkField ["d"] "string"]

/-- The parameter list `(a, b int, c, d string)`. -/
def groupedParams : List (Field String) :=
  [mkField ["a", "b"] "int", mkField ["c", "d"] "string"]

/-- The parameter list `(id int, name string, age int, city string)` of `Update`
in `test.go`. -/
def updateParams : List (Field String) :=
  [mkField ["id"] "int", mkField ["name"] "string", mkField ["age"] "int",
    mkField ["city"] "string"]

/-- The method `Get(c echo.Context) (error)` of `MyInterface` in `test.go`,
with the positions of its parentheses in that file. -/
def getSig : FuncType String :=
  { Params := some { Opening := 48, List := [mkField ["c"] "echo.Context"], Closing := 63 },
    Results := some { Opening := 65, List := [mkField [] "error"], Closing := 71 } }

/-- The method `Process(a, b int, c, d string) (User, error)` of `MyInterface`
in `test.go`, with the positions of its parentheses in that file. -/
def processSig : FuncType String :=
  { Params := some { Opening := 140, List := groupedParams, Closing := 162 },
    Results := some
      { Opening := 164, List := [mkField [] "User", mkField [] "error"], Closing := 176 } }

/-- A signature with two unnamed parameters and two unnamed results of one
type, `Swap(int, int) (int, int)`. -/
def swapSig : FuncType String :=
  { Params := some { Opening := 5, List := [mkField [] "int", mkField [] "int"], Closing := 14 },
    Results := some
      { Opening := 16, List := [mkField [] "int", mkField [] "int"], Closing := 25 } }

/-! ## Auxiliary definitions for the proofs -/

/-- The test of the inner loop: `g` has the same type text as `field`. -/
def sameKey (Fprint : Expr → String) (field g : Field Expr) : Bool :=
  decide (typeString Fprint field.Typ = typeString Fprint g.Typ)

/-- Put one field in front of an already grouped list: it joins the first
group when the type texts agree and opens a group of its own otherwise. -/
def groupCons (Fprint : Expr → String) (f : Field Expr) :
    List (Field Expr) → List (Field Expr)
  | [] => [{ Names := f.Names, Typ := f.Typ }]
  | g :: out =>
    if typeString Fprint f.Typ = typeString Fprint g.Typ then
      { Names := f.Names ++ g.Names, Typ := f.Typ } :: out
    else
      { Names := f.Names, Typ := f.Typ } :: g :: out

/-- Grouping as a right fold of `groupCons`. -/
def grouped (Fprint : Expr → String) (l : List (Field Expr)) : List (Field Expr) :=
  l.foldr (groupCons Fprint) []

/-- The names of a list of fields, in order. -/
def allNames (l : List (Field Expr)) : List Ident :=
  (l.map Field.Names).flatten

/-- The test of `processFuncType` for a result list: exactly one field, and
that field has no names. -/
def singleUnnamed (l : List (Field Expr)) : Prop :=
  l.length = 1 ∧ (l.head?.map fun f => f.Names.length) = some 0

/-- The field rebuilt by the composite literal of the program from its names
and type alone. -/
def Field.bare (f : Field Expr) : Field Expr :=
  { Names := f.Names, Typ := f.Typ }

/-- The field of a run when the run is not empty. -/
def mergeRunOpt : List (Field Expr) → Option (Field Expr)
  | [] => none
  | first :: rest => some (mergeRun (first :: rest) (List.cons_ne_nil first rest))

/-- Put one element in front of a list of runs: it joins the first run when it
is related to that run's first element and opens a run of its own otherwise. -/
def consRun {α : Type} (R : α → α → Bool) (a : α) : List (List α) → List (List α)
  | [] => [[a]]
  | [] :: runs => [a] :: runs
  | (b :: run) :: runs => if R a b = true then (a :: b :: run) :: runs else [a] :: (b :: run) :: runs

/-- Prepend elements to the first run of a list of runs. -/
def pushFront {α : Type} (pre : List α) : List (List α) → List (List α)
  | [] => [pre]
  | run :: runs => (pre ++ run) :: runs

/-! ## A structural reading of the two loops

The index loops of `mergeSameTypeFields` are read off as a right fold, which is
the form the proofs below work with. -/

/-- The exit state of the inner loop started at index `j`: it has advanced over
the longest prefix of `fields[j:]` with the key of `field`, collecting names. -/
theorem extend_eq (Fprint : Expr → String) (fields : List (Field Expr)) (field : Field Expr) :
    ∀ (rest : List (Field Expr)) (j : Nat) (names : List Ident),
      fields.drop j = rest →
      mergeSameTypeFields.extend Fprint fields field j names =
        (j + (rest.takeWhile (sameKey Fprint field)).length,
         names ++ allNames (rest.takeWhile (sameKey Fprint field)))
  | [], j, names, h => by
    have hj : ¬ j < fields.length := by
      intro hlt
      rw [List.drop_eq_getElem_cons hlt] at h
      cases h
    rw [mergeSameTypeFields.extend]
    simp [hj, allNames]
  | g :: rest, j, names, h => by
    have hj : j < fields.length := by
      by_contra hlt
      rw [List.drop_eq_nil_of_le (by omega)] at h
      cases h
    rw [List.drop_eq_getElem_cons hj] at h
    injection h with hg hrest
    rw [mergeSameTypeFields.extend]
    simp only [hj, dite_true, hg]
    by_cases hk : typeString Fprint field.Typ = typeString Fprint g.Typ
    · have hs : sameKey Fprint field g = true := by simp [sameKey, hk]
      rw [if_pos hk, extend_eq Fprint fields field rest (j + 1) (names ++ g.Names) hrest]
      simp [List.takeWhile_cons_of_pos hs, allNames]
      omega
    · have hs : ¬ sameKey Fprint field g = true := by simp [sameKey, hk]
      rw [if_neg hk]
      simp [List.takeWhile_cons_of_neg hs, allNames]

/-- Dropping the longest prefix that satisfies `p` is `dropWhile p`. -/
theorem drop_length_takeWhile_eq {α : Type} (p : α → Bool) :
    ∀ l : List α, l.drop (l.takeWhile p).length = l.dropWhile p
  | [] => rfl
  | a :: l => by
    by_cases h : p a = true
    · simp [List.takeWhile_cons_of_pos h, List.dropWhile_cons_of_pos h,
        drop_length_takeWhile_eq p l]
    · simp [List.takeWhile_cons_of_neg h, List.dropWhile_cons_of_neg h]

/-- The first group of `grouped (f :: l)` carries the type node of `f`. -/
theorem grouped_cons_head (Fprint : Expr → String) (f : Field Expr) (l : List (Field Expr)) :
    ∃ names out, grouped Fprint (f :: l) = { Names := names, Typ := f.Typ } :: out := by
  show ∃ names out, groupCons Fprint f (grouped Fprint l) = _
  cases grouped Fprint l with
  | nil => exact ⟨_, _, rfl⟩
  | cons g out =>
    by_cases hk : typeString Fprint f.Typ = typeString Fprint g.Typ
    · exact ⟨f.Names ++ g.Names, out, by simp only [groupCons, if_pos hk]⟩
    · exact ⟨f.Names, g :: out, by simp only [groupCons, if_neg hk]⟩

/-- The right fold, unrolled one group at a time: the first group of
`f :: rest` takes the longest prefix of `rest` with the key of `f`. -/
theorem grouped_cons (Fprint : Expr → String) :
    ∀ (rest : List (Field Expr)) (f : Field Expr),
      grouped Fprint (f :: rest) =
        { Names := f.Names ++ allNames (rest.takeWhile (sameKey Fprint f)), Typ := f.Typ } ::
          grouped Fprint (rest.dropWhile (sameKey Fprint f))
  | [], f => by simp [grouped, groupCons, allNames]
  | g :: rest, f => by
    have hfold : grouped Fprint (f :: g :: rest) =
        groupCons Fprint f (grouped Fprint (g :: rest)) := rfl
    by_cases hk : typeString Fprint f.Typ = typeString Fprint g.Typ
    · have hs : sameKey Fprint f g = true := by simp [sameKey, hk]
      have hfg : sameKey Fprint g = sameKey Fprint f := by
        funext x
        simp [sameKey, hk]
      rw [hfold, grouped_cons Fprint rest g, hfg]
      simp [groupCons, hk, List.takeWhile_cons_of_pos hs, List.dropWhile_cons_of_pos hs,
        allNames]
    · have hs : ¬ sameKey Fprint f g = true := by simp [sameKey, hk]
      obtain ⟨names, out, hg⟩ := grouped_cons_head Fprint g rest
      rw [hfold, List.takeWhile_cons_of_neg hs, List.dropWhile_cons_of_neg hs, hg]
      simp [groupCons, hk, allNames]

/-- The outer loop from state `(i, newList)` appends the grouping of
`fields[i:]` to `newList`. -/
theorem loop_eq (Fprint : Expr → String) (fields : List (Field Expr)) :
    ∀ (n i : Nat) (newList : List (Field Expr)), fields.length - i ≤ n →
      mergeSameTypeFields.loop Fprint fields i newList =
        newList ++ grouped Fprint (fields.drop i)
  | 0, i, newList, h => by
    have hi : ¬ i < fields.length := by omega
    rw [mergeSameTypeFields.loop]
    simp [hi, List.drop_eq_nil_of_le (Nat.le_of_not_lt hi), grouped]
  | n + 1, i, newList, h => by
    rw [mergeSameTypeFields.loop]
    by_cases hi : i < fields.length
    · have hd : fields.drop
          (i + 1 + ((fields.drop (i + 1)).takeWhile (sameKey Fprint fields[i])).length) =
          (fields.drop (i + 1)).dropWhile (sameKey Fprint fields[i]) := by
        rw [← List.drop_drop, drop_length_takeWhile_eq]
      simp only [hi, dite_true]
      rw [extend_eq Fprint fields fields[i] (fields.drop (i + 1)) (i + 1) _ rfl]
      rw [loop_eq Fprint fields n _ _ (by simp only; omega)]
      simp only [hd]
      rw [List.drop_eq_getElem_cons hi, grouped_cons]
      simp
    · simp [hi, List.drop_eq_nil_of_le (Nat.le_of_not_lt hi), grouped]

/-- The program's `mergeSameTypeFields` is the right fold `grouped`. -/
theorem mergeSameTypeFields_eq_grouped (Fprint : Expr → String) (l : List (Field Expr)) :
    mergeSameTypeFields Fprint l = grouped Fprint l := by
  unfold mergeSameTypeFields
  split
  · next h =>
    rw [List.length_eq_zero.mp h]
    rfl
  · rw [loop_eq Fprint l l.length 0 [] (by omega)]
    simp

/-! ## `List.splitBy` as a right fold -/

section SplitBy

variable {α : Type}

theorem foldr_consRun_head (R : α → α → Bool) (a : α) (l : List α) :
    ∃ run runs, (a :: l).foldr (consRun R) [] = (a :: run) :: runs := by
  show ∃ run runs, consRun R a (l.foldr (consRun R) []) = _
  cases l.foldr (consRun R) [] with
  | nil => exact ⟨[], [], rfl⟩
  | cons r rs =>
    cases r with
    | nil => exact ⟨[], rs, rfl⟩
    | cons b r =>
      by_cases h : R a b = true
      · exact ⟨b :: r, rs, by simp only [consRun, if_pos h]⟩
      · exact ⟨[], (b :: r) :: rs, by simp only [consRun, if_neg h]⟩

theorem splitBy_loop_eq (R : α → α → Bool) :
    ∀ (l : List α) (a : α) (g : List α) (gs : List (List α)),
      List.splitBy.loop R l a g gs =
        gs.reverse ++ pushFront g.reverse ((a :: l).foldr (consRun R) [])
  | [], a, g, gs => by simp [List.splitBy.loop, consRun, pushFront]
  | b :: l, a, g, gs => by
    obtain ⟨run, runs, hT⟩ := foldr_consRun_head R b l
    have hfold : (a :: b :: l).foldr (consRun R) [] =
        consRun R a ((b :: l).foldr (consRun R) []) := rfl
    rw [List.splitBy.loop, hfold]
    by_cases h : R a b = true
    · simp [h, splitBy_loop_eq R l b, hT, consRun, pushFront]
    · have h2 : R a b = false := by simpa using h
      simp [h2, splitBy_loop_eq R l b, hT, consRun, pushFront]

theorem splitBy_eq_foldr (R : α → α → Bool) (l : List α) :
    l.splitBy R = l.foldr (consRun R) [] := by
  cases l with
  | nil => rfl
  | cons a l =>
    obtain ⟨run, runs, hT⟩ := foldr_consRun_head R a l
    show List.splitBy.loop R l a [] [] = _
    rw [splitBy_loop_eq, hT]
    simp [pushFront]

end SplitBy

/-! ## Properties of the right fold -/

theorem allNames_groupCons (Fprint : Expr → String) (f : Field Expr)
    (out : List (Field Expr)) :
    allNames (groupCons Fprint f out) = f.Names ++ allNames out := by
  cases out with
  | nil => simp [groupCons, allNames]
  | cons g out =>
    by_cases hk : typeString Fprint f.Typ = typeString Fprint g.Typ
    · simp [groupCons, hk, allNames]
    · simp [groupCons, hk, allNames]

theorem allNames_grouped (Fprint : Expr → String) (l : List (Field Expr)) :
    allNames (grouped Fprint l) = allNames l := by
  induction l with
  | nil => rfl
  | cons f l ih =>
    show allNames (groupCons Fprint f (grouped Fprint l)) = _
    rw [allNames_groupCons, ih]
    simp [allNames]

theorem groupCons_noAdjacent (Fprint : Expr → String) (f : Field Expr)
    (out : List (Field Expr)) (h : NoAdjacentSameType Fprint out) :
    NoAdjacentSameType Fprint (groupCons Fprint f out) := by
  unfold NoAdjacentSameType at *
  cases out with
  | nil => simp [groupCons]
  | cons g out =>
    by_cases hk : typeString Fprint f.Typ = typeString Fprint g.Typ
    · simp only [groupCons, if_pos hk]
      cases out with
      | nil => simp
      | cons g2 out =>
        rw [List.chain'_cons] at h ⊢
        exact ⟨by simpa [hk] using h.1, h.2⟩
    · simp only [groupCons, if_neg hk]
      rw [List.chain'_cons]
      exact ⟨hk, h⟩

theorem grouped_noAdjacent (Fprint : Expr → String) (l : List (Field Expr)) :
    NoAdjacentSameType Fprint (grouped Fprint l) := by
  induction l with
  | nil => simp [grouped, NoAdjacentSameType]
  | cons f l ih => exact groupCons_noAdjacent Fprint f _ ih

theorem grouped_of_noAdjacent (Fprint : Expr → String) (l : List (Field Expr))
    (h : NoAdjacentSameType Fprint l) : grouped Fprint l = l.map Field.bare := by
  induction l with
  | nil => rfl
  | cons f l ih =>
    have hl : NoAdjacentSameType Fprint l := List.Chain'.tail h
    show groupCons Fprint f (grouped Fprint l) = _
    rw [ih hl]
    cases l with
    | nil => rfl
    | cons g l =>
      have hk : ¬ typeString Fprint f.Typ = typeString Fprint g.Typ :=
        (List.chain'_cons.mp h).1
      simp [groupCons, Field.bare, hk]

theorem groupCons_bare (Fprint : Expr → String) (f : Field Expr) (out : List (Field Expr))
    (h : out.map Field.bare = out) :
    (groupCons Fprint f out).map Field.bare = groupCons Fprint f out := by
  cases out with
  | nil => simp [groupCons, Field.bare]
  | cons g out =>
    rw [List.map_cons] at h
    injection h with hg hout
    by_cases hk : typeString Fprint f.Typ = typeString Fprint g.Typ
    · simp [groupCons, hk, Field.bare, hout]
    · simp only [groupCons, if_neg hk, List.map_cons, hg, hout]
      simp [Field.bare]

theorem grouped_bare (Fprint : Expr → String) (l : List (Field Expr)) :
    (grouped Fprint l).map Field.bare = grouped Fprint l := by
  induction l with
  | nil => rfl
  | cons f l ih => exact groupCons_bare Fprint f _ ih

theorem grouped_grouped (Fprint : Expr → String) (l : List (Field Expr)) :
    grouped Fprint (grouped Fprint l) = grouped Fprint l := by
  rw [grouped_of_noAdjacent Fprint _ (grouped_noAdjacent Fprint l), grouped_bare]

/-! ## The right fold is the reference grouping -/

theorem pmap_mergeRun_eq :
    ∀ (runs : List (List (Field Expr))) (H : ∀ run ∈ runs, run ≠ []) (out : List (Field Expr)),
      runs.map mergeRunOpt = out.map some → runs.pmap mergeRun H = out
  | [], _, [], _ => rfl
  | [], _, _ :: _, h => by simp at h
  | _ :: _, _, [], h => by simp at h
  | run :: runs, H, o :: out, h => by
    rw [List.map_cons, List.map_cons] at h
    injection h with h1 h2
    cases run with
    | nil => exact absurd rfl (H [] (List.mem_cons_self _ _))
    | cons first rest =>
      rw [mergeRunOpt] at h1
      injection h1 with h1
      rw [List.pmap, h1, pmap_mergeRun_eq runs _ out h2]

theorem consRun_groupCons (Fprint : Expr → String) (f : Field Expr)
    (runs : List (List (Field Expr))) (out : List (Field Expr))
    (h : runs.map mergeRunOpt = out.map some) :
    (consRun (fun a b => decide (typeString Fprint a.Typ = typeString Fprint b.Typ)) f runs).map
      mergeRunOpt = (groupCons Fprint f out).map some := by
  match runs, out, h with
  | [], [], _ => simp [consRun, groupCons, mergeRunOpt, mergeRun]
  | [], _ :: _, h => simp at h
  | _ :: _, [], h => simp at h
  | [] :: runs, o :: out, h => simp [mergeRunOpt] at h
  | (g :: run) :: runs, o :: out, h =>
    rw [List.map_cons, List.map_cons] at h
    injection h with h1 h2
    simp only [mergeRunOpt, mergeRun, List.head_cons, Option.some.injEq] at h1
    subst h1
    by_cases hk : typeString Fprint f.Typ = typeString Fprint g.Typ
    · simp [consRun, groupCons, hk, mergeRunOpt, mergeRun, h2]
    · simp [consRun, groupCons, hk, mergeRunOpt, mergeRun, h2]

theorem map_mergeRunOpt_maximalRuns (Fprint : Expr → String) (l : List (Field Expr)) :
    (maximalRuns Fprint l).map mergeRunOpt = (grouped Fprint l).map some := by
  rw [maximalRuns, splitBy_eq_foldr]
  induction l with
  | nil => rfl
  | cons f l ih => exact consRun_groupCons Fprint f _ _ ih

theorem grouped_eq_maximalRunMerge (Fprint : Expr → String) (l : List (Field Expr)) :
    grouped Fprint l = maximalRunMerge Fprint l :=
  (pmap_mergeRun_eq _ _ _ (map_mergeRunOpt_maximalRuns Fprint l)).symm

/-- The runs of `maximalRuns` are the maximal runs of equal type text: they
concatenate to the list, none is empty, adjacent fields inside a run have equal
type text, and the last field of a run and the first field of the next run have
different type text. -/
theorem maximalRuns_spec (Fprint : Expr → String) (l : List (Field Expr)) :
    (maximalRuns Fprint l).flatten = l ∧
    [] ∉ maximalRuns Fprint l ∧
    (∀ run ∈ maximalRuns Fprint l,
      run.Chain' fun a b => typeString Fprint a.Typ = typeString Fprint b.Typ) ∧
    (maximalRuns Fprint l).Chain' fun r1 r2 =>
      ∃ h1 h2, typeString Fprint (r1.getLast h1).Typ ≠ typeString Fprint (r2.head h2).Typ := by
  refine ⟨List.flatten_splitBy _ l, List.nil_not_mem_splitBy _ l, fun run hrun => ?_, ?_⟩
  · have := List.chain'_of_mem_splitBy hrun
    simpa using this
  · have := List.chain'_getLast_head_splitBy
      (fun a b : Field Expr => decide (typeString Fprint a.Typ = typeString Fprint b.Typ)) l
    simpa [maximalRuns] using this

/-! ## The field grouper -/

/-- C1 (name conservation): for every field list `l`, the names of the fields
of `mergeSameTypeFields l`, concatenated in order, are exactly the names of the
fields of `l`, concatenated in order. -/
theorem mergeSameTypeFields_names (Fprint : Expr → String) (l : List (Field Expr)) :
    ((mergeSameTypeFields Fprint l).map Field.Names).flatten =
      (l.map Field.Names).flatten := by
  rw [mergeSameTypeFields_eq_grouped]
  exact allNames_grouped Fprint l

/-- C2 (maximal run merge): for every field list `l`, `mergeSameTypeFields l` is
the reference grouping, which splits `l` into its maximal runs of adjacent
fields of equal type text and maps each run to the field with the type of the
run's first field and the names of the run concatenated in order; and
`(a int, b int, c string, d string)` becomes `(a, b int, c, d string)`. -/
theorem mergeSameTypeFields_eq_maximalRunMerge :
    (∀ (Expr : Type) (Fprint : Expr → String) (l : List (Field Expr)),
      mergeSameTypeFields Fprint l = maximalRunMerge Fprint l) ∧
    mergeSameTypeFields id ungroupedParams = groupedParams := by
  refine ⟨fun Expr Fprint l => ?_, ?_⟩
  · rw [mergeSameTypeFields_eq_grouped, grouped_eq_maximalRunMerge]
  · rw [mergeSameTypeFields_eq_grouped]
    decide

/-- C3 (field count): for every field list `l`, the number of fields of
`mergeSameTypeFields l` is the number of maximal runs of adjacent fields of `l`
with equal type text. -/
theorem mergeSameTypeFields_length (Fprint : Expr → String) (l : List (Field Expr)) :
    (mergeSameTypeFields Fprint l).length = (maximalRuns Fprint l).length := by
  rw [mergeSameTypeFields_eq_grouped, grouped_eq_maximalRunMerge, maximalRunMerge,
    List.length_pmap]

/-- C4 (finalized-list invariant): for every field list `l`, no two adjacent
fields of `mergeSameTypeFields l` have the same type text. -/
theorem mergeSameTypeFields_noAdjacent (Fprint : Expr → String) (l : List (Field Expr)) :
    (mergeSameTypeFields Fprint l).Chain' fun a b =>
      typeString Fprint a.Typ ≠ typeString Fprint b.Typ := by
  rw [mergeSameTypeFields_eq_grouped]
  exact grouped_noAdjacent Fprint l

/-- C7 (field-list idempotence): for every field list `l`, grouping the grouped
list gives the grouped list again, field for field, and so the same sequence of
names and types. -/
theorem mergeSameTypeFields_idempotent (Fprint : Expr → String) (l : List (Field Expr)) :
    mergeSameTypeFields Fprint (mergeSameTypeFields Fprint l) = mergeSameTypeFields Fprint l ∧
    (mergeSameTypeFields Fprint (mergeSameTypeFields Fprint l)).map Field.namesAndType =
      (mergeSameTypeFields Fprint l).map Field.namesAndType := by
  have h : mergeSameTypeFields Fprint (mergeSameTypeFields Fprint l) =
      mergeSameTypeFields Fprint l := by
    simp only [mergeSameTypeFields_eq_grouped, grouped_grouped]
  exact ⟨h, by rw [h]⟩

/-- C8 (already grouped lists): for every field list `l` in which no two
adjacent fields have the same type text, `mergeSameTypeFields l` has the fields
of `l`, each with the same names and the same type, in the same order. -/
theorem mergeSameTypeFields_of_noAdjacent (Fprint : Expr → String) (l : List (Field Expr))
    (h : l.Chain' fun a b => typeString Fprint a.Typ ≠ typeString Fprint b.Typ) :
    (mergeSameTypeFields Fprint l).map Field.namesAndType = l.map Field.namesAndType := by
  rw [mergeSameTypeFields_eq_grouped, grouped_of_noAdjacent Fprint l h, List.map_map]
  rfl

/-- The parameters `(id int, name string, age int, city string)` of `Update`
have no two adjacent fields of the same type text and are left as they are. -/
theorem mergeSameTypeFields_of_noAdjacent_witness :
    (updateParams.Chain' fun a b => typeString id a.Typ ≠ typeString id b.Typ) ∧
    (mergeSameTypeFields id updateParams).map Field.namesAndType =
      updateParams.map Field.namesAndType :=
  have h : updateParams.Chain' fun a b => typeString id a.Typ ≠ typeString id b.Typ := by
    simp [updateParams, mkField, typeString]
  ⟨h, mergeSameTypeFields_of_noAdjacent id updateParams h⟩

/-! ## The signature rewrite -/

/-- The parameter list after `processFuncType`: the same list node with its
fields grouped. -/
theorem processFuncType_params (Fprint : Expr → String) (s : FuncType Expr) :
    (processFuncType Fprint s).Params =
      s.Params.map fun params =>
        { params with List := mergeSameTypeFields Fprint params.List } := by
  obtain ⟨fn, tp, params, results⟩ := s
  cases params <;> cases results <;> rfl

/-- The result list after `processFuncType`: the markers are cleared when the
list is one field without names, and the fields are grouped. -/
theorem processFuncType_results (Fprint : Expr → String) (s : FuncType Expr) :
    (processFuncType Fprint s).Results =
      s.Results.map fun results =>
        { (if results.List.length = 1 ∧
              (results.List.head?.map fun f => f.Names.length) = some 0 then
            { results with Opening := NoPos, Closing := NoPos }
          else results) with
          List := mergeSameTypeFields Fprint results.List } := by
  obtain ⟨fn, tp, params, results⟩ := s
  cases params <;> cases results <;> simp [processFuncType] <;> split <;> rfl

/-- C9 (deparenthesization applies): for every signature whose result list is
exactly one field without names, `processFuncType` sets the `Opening` and
`Closing` markers of the result list to `NoPos`, and the result list is still
that one field without names and with the same type. -/
theorem processFuncType_single_unnamed_result (Fprint : Expr → String) (s : FuncType Expr)
    (results : FieldList Expr) (f : Field Expr) (hres : s.Results = some results)
    (hlist : results.List = [f]) (hnames : f.Names.length = 0) :
    (processFuncType Fprint s).Results =
      some { Opening := NoPos, List := [{ Names := [], Typ := f.Typ }], Closing := NoPos } := by
  have hn : f.Names = [] := List.length_eq_zero.mp hnames
  rw [processFuncType_results, hres]
  simp only [Option.map_some', hlist, mergeSameTypeFields_eq_grouped]
  simp [hnames, grouped, groupCons, hn]

/-- The method `Get(c echo.Context) (error)` has one result field without
names; its markers become `NoPos` and the field `error` stays. -/
theorem processFuncType_single_unnamed_result_witness :
    getSig.Results = some { Opening := 65, List := [mkField [] "error"], Closing := 71 } ∧
    (mkField [] "error").Names.length = 0 ∧
    (processFuncType id getSig).Results =
      some { Opening := NoPos, List := [{ Names := [], Typ := "error" }], Closing := NoPos } :=
  ⟨rfl, rfl, processFuncType_single_unnamed_result id getSig
    { Opening := 65, List := [mkField [] "error"], Closing := 71 } (mkField [] "error")
    rfl rfl rfl⟩

/-- C10 (deparenthesization never applies elsewhere): for every signature,
when the result list has two or more fields, or exactly one field with at least
one name, `processFuncType` leaves the `Opening` and `Closing` markers of the
result list unchanged; and in every case it leaves the `Opening` and `Closing`
markers of the parameter list unchanged (a nil list stays nil). -/
theorem processFuncType_markers (Fprint : Expr → String) (s : FuncType Expr) :
    (∀ results : FieldList Expr, s.Results = some results →
      (2 ≤ results.List.length ∨ ∃ f, results.List = [f] ∧ 1 ≤ f.Names.length) →
      ((processFuncType Fprint s).Results.map fun r => (r.Opening, r.Closing)) =
        some (results.Opening, results.Closing)) ∧
    ((processFuncType Fprint s).Params.map fun p => (p.Opening, p.Closing)) =
      s.Params.map fun p => (p.Opening, p.Closing) := by
  constructor
  · intro results hres hshape
    have hcond : ¬ (results.List.length = 1 ∧
        (results.List.head?.map fun f => f.Names.length) = some 0) := by
      rintro ⟨h1, h2⟩
      rcases hshape with h | ⟨f, hf, hn⟩
      · omega
      · rw [hf] at h2
        simp only [List.head?_cons, Option.map_some', Option.some.injEq] at h2
        omega
    rw [processFuncType_results, hres]
    simp only [Option.map_some', if_neg hcond]
  · rw [processFuncType_params]
    cases s.Params <;> rfl

/-- The method `Process(a, b int, c, d string) (User, error)` has two result
fields and keeps the parentheses of its result list. -/
theorem processFuncType_markers_witness :
    processSig.Results = some
      { Opening := 164, List := [mkField [] "User", mkField [] "error"], Closing := 176 } ∧
    ((processFuncType id processSig).Results.map fun r => (r.Opening, r.Closing)) =
      some (164, 176) :=
  ⟨rfl, (processFuncType_markers id processSig).1
    { Opening := 164, List := [mkField [] "User", mkField [] "error"], Closing := 176 } rfl
    (Or.inl (Nat.le_refl 2))⟩

/-- The rewrite of `Swap(int, int) (int, int)`: both lists are collapsed to the
single field `int`, and the result list keeps its markers. -/
theorem processFuncType_swapSig :
    processFuncType id swapSig =
      { Params := some { Opening := 5, List := [mkField [] "int"], Closing := 14 },
        Results := some { Opening := 16, List := [mkField [] "int"], Closing := 25 } } := by
  simp only [processFuncType, swapSig, mergeSameTypeFields_eq_grouped]
  decide

/-- C5 at the signature `Swap(int, int) (int, int)`: the parameter list and the
result list each declare two values before `processFuncType` and one value
after it, so the number of declared values is not preserved. -/
theorem processFuncType_numValues_swapSig :
    numValuesOpt swapSig.Params = 2 ∧
    numValuesOpt (processFuncType id swapSig).Params = 1 ∧
    numValuesOpt swapSig.Results = 2 ∧
    numValuesOpt (processFuncType id swapSig).Results = 1 := by
  rw [processFuncType_swapSig]
  decide

/-- C6 at the signature `Swap(int, int) (int, int)`: after one application of
`processFuncType` the result list is the single field `int` with its markers
16 and 25 kept; a second application clears both markers, so the second
application does not return the signature it was given. -/
theorem processFuncType_twice_swapSig :
    (processFuncType id swapSig).Results =
      some { Opening := 16, List := [mkField [] "int"], Closing := 25 } ∧
    (processFuncType id (processFuncType id swapSig)).Results =
      some { Opening := NoPos, List := [mkField [] "int"], Closing := NoPos } ∧
    processFuncType id (processFuncType id swapSig) ≠ processFuncType id swapSig := by
  have h2 : (processFuncType id (processFuncType id swapSig)).Results =
      some { Opening := NoPos, List := [mkField [] "int"], Closing := NoPos } := by
    rw [processFuncType_swapSig]
    simp only [processFuncType, mergeSameTypeFields_eq_grouped]
    decide
  refine ⟨by rw [processFuncType_swapSig], h2, fun h => ?_⟩
  rw [h, processFuncType_swapSig] at h2
  revert h2
  decide

/-! ## Where the value count and the signature idempotence do hold -/

theorem numValues_eq_of_named (l : List (Field Expr)) (h : ∀ f ∈ l, f.Names ≠ []) :
    numValues l = (allNames l).length := by
  induction l with
  | nil => rfl
  | cons f l ih =>
    have hf : f.Names.length ≠ 0 := fun h0 =>
      h f (List.mem_cons_self _ _) (List.length_eq_zero.mp h0)
    have hl := ih fun g hg => h g (List.mem_cons_of_mem _ hg)
    simp only [numValues, allNames, List.map_cons, List.sum_cons, List.flatten_cons,
      List.length_append, if_neg hf] at hl ⊢
    rw [hl]

theorem groupCons_named (Fprint : Expr → String) (f : Field Expr) (out : List (Field Expr))
    (hf : f.Names ≠ []) (h : ∀ g ∈ out, g.Names ≠ []) :
    ∀ g ∈ groupCons Fprint f out, g.Names ≠ [] := by
  cases out with
  | nil =>
    intro g hg
    simp only [groupCons, List.mem_singleton] at hg
    rw [hg]
    exact hf
  | cons o out =>
    intro g hg
    by_cases hk : typeString Fprint f.Typ = typeString Fprint o.Typ
    · simp only [groupCons, if_pos hk, List.mem_cons] at hg
      rcases hg with hg | hg
      · rw [hg]
        simp [hf]
      · exact h g (List.mem_cons_of_mem _ hg)
    · simp only [groupCons, if_neg hk, List.mem_cons] at hg
      rcases hg with hg | hg | hg
      · rw [hg]
        exact hf
      · rw [hg]
        exact h o (List.mem_cons_self _ _)
      · exact h g (List.mem_cons_of_mem _ hg)

theorem grouped_named (Fprint : Expr → String) (l : List (Field Expr))
    (h : ∀ f ∈ l, f.Names ≠ []) : ∀ g ∈ grouped Fprint l, g.Names ≠ [] := by
  induction l with
  | nil =>
    intro g hg
    cases hg
  | cons f l ih =>
    exact groupCons_named Fprint f _ (h f (List.mem_cons_self _ _))
      (ih fun g hg => h g (List.mem_cons_of_mem _ hg))

/-- When every field of the list has at least one name, `mergeSameTypeFields`
keeps the number of declared values. -/
theorem mergeSameTypeFields_numValues_of_named (Fprint : Expr → String)
    (l : List (Field Expr)) (h : ∀ f ∈ l, f.Names ≠ []) :
    numValues (mergeSameTypeFields Fprint l) = numValues l := by
  rw [mergeSameTypeFields_eq_grouped, numValues_eq_of_named l h,
    numValues_eq_of_named _ (grouped_named Fprint l h), allNames_grouped]

theorem processFuncType_func (Fprint : Expr → String) (s : FuncType Expr) :
    (processFuncType Fprint s).Func = s.Func := by
  obtain ⟨fn, tp, params, results⟩ := s
  cases params <;> cases results <;> rfl

theorem processFuncType_typeParams (Fprint : Expr → String) (s : FuncType Expr) :
    (processFuncType Fprint s).TypeParams = s.TypeParams := by
  obtain ⟨fn, tp, params, results⟩ := s
  cases params <;> cases results <;> rfl

theorem FuncType.eq_of_fields {a b : FuncType Expr} (h1 : a.Func = b.Func)
    (h2 : a.TypeParams = b.TypeParams) (h3 : a.Params = b.Params)
    (h4 : a.Results = b.Results) : a = b := by
  cases a
  cases b
  simp_all

/-- A result list that groups to one field without names was already one field
without names, unless it had two or more fields, none of them named. -/
theorem singleUnnamed_of_grouped (Fprint : Expr → String) (l : List (Field Expr))
    (h : l.length ≤ 1 ∨ ∃ f ∈ l, f.Names ≠ [])
    (hg : singleUnnamed (mergeSameTypeFields Fprint l)) : singleUnnamed l := by
  rw [mergeSameTypeFields_eq_grouped] at hg
  obtain ⟨hlen, hhead⟩ := hg
  obtain ⟨g, hgl⟩ := List.length_eq_one.mp hlen
  rw [hgl] at hhead
  simp only [List.head?_cons, Option.map_some', Option.some.injEq] at hhead
  have hnames : allNames l = [] := by
    rw [← allNames_grouped Fprint l, hgl]
    simp [allNames, List.length_eq_zero.mp hhead]
  have hall : ∀ f ∈ l, f.Names = [] := by
    intro f hf
    simp only [allNames, List.flatten_eq_nil_iff, List.mem_map] at hnames
    exact hnames f.Names ⟨f, hf, rfl⟩
  have hle : l.length ≤ 1 := by
    rcases h with h | ⟨f, hf, hn⟩
    · exact h
    · exact absurd (hall f hf) hn
  match l, hle, hall, hgl with
  | [], _, _, hgl => simp [grouped] at hgl
  | [f], _, hall, _ =>
    exact ⟨rfl, by simp [hall f (List.mem_singleton.mpr rfl)]⟩
  | _ :: _ :: _, hle, _, _ => simp at hle

/-- Signature idempotence holds for every signature whose result list has at
most one field or has a named field: a second `processFuncType` returns the
signature it was given. -/
theorem processFuncType_idempotent_of (Fprint : Expr → String) (s : FuncType Expr)
    (h : ∀ results, s.Results = some results →
      results.List.length ≤ 1 ∨ ∃ f ∈ results.List, f.Names ≠ []) :
    processFuncType Fprint (processFuncType Fprint s) = processFuncType Fprint s := by
  apply FuncType.eq_of_fields
  · rw [processFuncType_func]
  · rw [processFuncType_typeParams]
  · rw [processFuncType_params, processFuncType_params]
    cases s.Params with
    | none => rfl
    | some params =>
      simp only [Option.map_some', (mergeSameTypeFields_idempotent Fprint params.List).1]
  · rw [processFuncType_results, processFuncType_results]
    cases hres : s.Results with
    | none => rfl
    | some results =>
      have hkey := singleUnnamed_of_grouped Fprint results.List (h results hres)
      unfold singleUnnamed at hkey
      simp only [Option.map_some', (mergeSameTypeFields_idempotent Fprint results.List).1]
      by_cases hc : results.List.length = 1 ∧
          (results.List.head?.map fun f => f.Names.length) = some 0
      · simp only [if_pos hc, ite_self]
      · have hc2 := fun hg => hc (hkey hg)
        simp only [if_neg hc, if_neg hc2]

/-- When every parameter and every result field has at least one name,
`processFuncType` keeps the number of values declared by both lists. -/
theorem processFuncType_numValues_of_named (Fprint : Expr → String) (s : FuncType Expr)
    (hp : ∀ params, s.Params = some params → ∀ f ∈ params.List, f.Names ≠ [])
    (hr : ∀ results, s.Results = some results → ∀ f ∈ results.List, f.Names ≠ []) :
    numValuesOpt (processFuncType Fprint s).Params = numValuesOpt s.Params ∧
    numValuesOpt (processFuncType Fprint s).Results = numValuesOpt s.Results := by
  rw [processFuncType_params, processFuncType_results]
  constructor
  · cases hparams : s.Params with
    | none => rfl
    | some params =>
      exact mergeSameTypeFields_numValues_of_named Fprint params.List (hp params hparams)
  · cases hres : s.Results with
    | none => rfl
    | some results =>
      exact mergeSameTypeFields_numValues_of_named Fprint results.List (hr results hres)

/-! ## Unnamed fields, the empty list and termination -/

theorem length_groupCons_le (Fprint : Expr → String) (f : Field Expr)
    (out : List (Field Expr)) : (groupCons Fprint f out).length ≤ out.length + 1 := by
  cases out with
  | nil => simp [groupCons]
  | cons g out =>
    by_cases hk : typeString Fprint f.Typ = typeString Fprint g.Typ
    · simp [groupCons, hk]
    · simp [groupCons, hk]

theorem length_grouped_le (Fprint : Expr → String) (l : List (Field Expr)) :
    (grouped Fprint l).length ≤ l.length := by
  induction l with
  | nil => simp [grouped]
  | cons f l ih =>
    have := length_groupCons_le Fprint f (grouped Fprint l)
    show (groupCons Fprint f (grouped Fprint l)).length ≤ l.length + 1
    omega

/-- C15 (unnamed fields are merged like named ones): two adjacent fields
without names and with equal type text are merged into a single field without
names and with the type of the first; and in the inner loop a field without
names whose type text equals that of the run is passed over, the index moving
on by one and the collected names staying as they are. -/
theorem mergeSameTypeFields_unnamed (Fprint : Expr → String) :
    (∀ f g : Field Expr, f.Names = [] → g.Names = [] →
      typeString Fprint f.Typ = typeString Fprint g.Typ →
      mergeSameTypeFields Fprint [f, g] = [{ Names := [], Typ := f.Typ }]) ∧
    (∀ (fields : List (Field Expr)) (field : Field Expr) (j : Nat) (names : List Ident)
      (h : j < fields.length), fields[j].Names = [] →
      typeString Fprint field.Typ = typeString Fprint fields[j].Typ →
      mergeSameTypeFields.extend Fprint fields field j names =
        mergeSameTypeFields.extend Fprint fields field (j + 1) names) := by
  constructor
  · intro f g hf hg hk
    rw [mergeSameTypeFields_eq_grouped]
    simp [grouped, groupCons, hk, hf, hg]
  · intro fields field j names h hn hk
    rw [mergeSameTypeFields.extend]
    simp [h, hk, hn]

/-- The two unnamed parameters of `Swap(int, int) (int, int)` are merged into
the one unnamed parameter `int`. -/
theorem mergeSameTypeFields_unnamed_witness :
    (mkField [] "int").Names = [] ∧
    typeString id (mkField [] "int").Typ = typeString id (mkField [] "int").Typ ∧
    mergeSameTypeFields id [mkField [] "int", mkField [] "int"] =
      [{ Names := [], Typ := "int" }] :=
  ⟨rfl, rfl, (mergeSameTypeFields_unnamed id).1 (mkField [] "int") (mkField [] "int")
    rfl rfl rfl⟩

/-- C16 (empty input): `mergeSameTypeFields` applied to the empty field list
returns the empty field list. -/
theorem mergeSameTypeFields_nil (Fprint : Expr → String) :
    mergeSameTypeFields Fprint ([] : List (Field Expr)) = [] := by
  simp [mergeSameTypeFields]

/-- C19 (termination): `mergeSameTypeFields` is a total function; in every pass
of the outer loop, started at an index `i` below `len(fields)`, the inner loop
exits with an index `j` such that `i < j` and `j ≤ len(fields)`; the runs that
the output fields are built from concatenate to the input, so every input field
is in exactly one run; and the output has at most as many fields as the
input. -/
theorem mergeSameTypeFields_terminates (Fprint : Expr → String)
    (fields : List (Field Expr)) :
    (∀ (i : Nat) (h : i < fields.length),
      i < (mergeSameTypeFields.extend Fprint fields fields[i] (i + 1)
        ([] ++ fields[i].Names)).1 ∧
      (mergeSameTypeFields.extend Fprint fields fields[i] (i + 1)
        ([] ++ fields[i].Names)).1 ≤ fields.length) ∧
    ((maximalRuns Fprint fields).flatten = fields ∧
      mergeSameTypeFields Fprint fields = maximalRunMerge Fprint fields) ∧
    (mergeSameTypeFields Fprint fields).length ≤ fields.length := by
  refine ⟨fun i h => ?_, ⟨List.flatten_splitBy _ fields, ?_⟩, ?_⟩
  · rw [extend_eq Fprint fields fields[i] (fields.drop (i + 1)) (i + 1) _ rfl]
    have h1 := (List.takeWhile_prefix (l := fields.drop (i + 1))
      (sameKey Fprint fields[i])).length_le
    have h2 : (fields.drop (i + 1)).length = fields.length - (i + 1) := List.length_drop _ _
    simp only
    omega
  · rw [mergeSameTypeFields_eq_grouped, grouped_eq_maximalRunMerge]
  · rw [mergeSameTypeFields_eq_grouped]
    exact length_grouped_le Fprint fields

/-- The first pass over `(a int, b int, c string, d string)` starts at index 0
and ends at an index between 1 and 4. -/
theorem mergeSameTypeFields_terminates_witness :
    ∃ h : 0 < ungroupedParams.length,
      0 < (mergeSameTypeFields.extend id ungroupedParams ungroupedParams[0] (0 + 1)
        ([] ++ ungroupedParams[0].Names)).1 ∧
      (mergeSameTypeFields.extend id ungroupedParams ungroupedParams[0] (0 + 1)
        ([] ++ ungroupedParams[0].Names)).1 ≤ ungroupedParams.length :=
  ⟨by decide, (mergeSameTypeFields_terminates id ungroupedParams).1 0 (by decide)⟩

/-! ## The normalizer: matches and the scan -/

/-- A match at the start of a text is a decomposition of the text into `) (`,
a non-empty group of class characters, `) {` and the rest. -/
theorem reMatchAt_eq_some_iff (s g rest : List Char) :
    reMatchAt s = some (g, rest) ↔
      s = [')', ' ', '('] ++ g ++ [')', ' ', '{'] ++ rest ∧ g ≠ [] ∧
        ∀ c ∈ g, reClass c = true := by
  constructor
  · intro h
    unfold reMatchAt at h
    split at h
    · next c0 c1 c2 t =>
      split at h
      · next hc =>
        split at h
        · next d0 d1 d2 rest2 hd =>
          split at h
          · next hg =>
            simp only [Option.some.injEq, Prod.mk.injEq] at h
            obtain ⟨h1, h2⟩ := h
            refine ⟨?_, h1 ▸ hg.1, fun c hc2 => ?_⟩
            · have ht := List.takeWhile_append_dropWhile reClass t
              rw [hd, h1, h2] at ht
              rw [hc.1, hc.2.1, hc.2.2, ← ht, hg.2.1, hg.2.2.1, hg.2.2.2]
              simp
            · rw [← h1] at hc2
              exact List.mem_takeWhile_imp hc2
          · cases h
        · cases h
      · cases h
    · cases h
  · rintro ⟨rfl, hg, hall⟩
    have h1 : List.takeWhile reClass (g ++ ')' :: ' ' :: '{' :: rest) = g := by
      rw [List.takeWhile_append_of_pos hall]
      simp [reClass]
    have h2 : List.dropWhile reClass (g ++ ')' :: ' ' :: '{' :: rest) =
        ')' :: ' ' :: '{' :: rest := by
      rw [List.dropWhile_append_of_pos hall]
      simp [reClass]
    simp [reMatchAt, h1, h2, hg]

theorem replaceAll_nil : replaceAll [] = [] := by
  rw [replaceAll]
  split
  · next h => simp [reMatchAt] at h
  · rfl

theorem replaceAll_of_match (s g rest : List Char) (h : reMatchAt s = some (g, rest)) :
    replaceAll s = [')', ' '] ++ g ++ [' ', '{'] ++ replaceAll rest := by
  rw [replaceAll]
  split
  · next g2 rest2 h2 =>
    rw [h] at h2
    simp only [Option.some.injEq, Prod.mk.injEq] at h2
    rw [h2.1, h2.2]
  · next h2 =>
    rw [h] at h2
    cases h2

theorem replaceAll_of_noMatch (c : Char) (cs : List Char) (h : reMatchAt (c :: cs) = none) :
    replaceAll (c :: cs) = c :: replaceAll cs := by
  rw [replaceAll]
  split
  · next g2 rest2 h2 =>
    rw [h] at h2
    cases h2
  · rfl

theorem reMatchAt_none_of_not_prefix (s : List Char) (h : ¬ [')', ' ', '('] <+: s) :
    reMatchAt s = none := by
  cases hm : reMatchAt s with
  | none => rfl
  | some r =>
    obtain ⟨g, rest⟩ := r
    have hs := ((reMatchAt_eq_some_iff s g rest).mp hm).1
    exact absurd ⟨g ++ [')', ' ', '{'] ++ rest, by rw [hs]; simp⟩ h

theorem replaceAll_cons_of_ne (c : Char) (cs : List Char) (h : c ≠ ')') :
    replaceAll (c :: cs) = c :: replaceAll cs := by
  apply replaceAll_of_noMatch
  apply reMatchAt_none_of_not_prefix
  rintro ⟨t, ht⟩
  simp only [List.cons_append, List.cons.injEq] at ht
  exact h ht.1.symm

/-- A stretch of text without `)` is copied as it is. -/
theorem replaceAll_append_of_noClose (x u : List Char) (h : ∀ c ∈ x, c ≠ ')') :
    replaceAll (x ++ u) = x ++ replaceAll u := by
  induction x with
  | nil => rfl
  | cons c x ih =>
    rw [List.cons_append, replaceAll_cons_of_ne c _ (h c (List.mem_cons_self _ _)),
      ih fun d hd => h d (List.mem_cons_of_mem _ hd)]
    rfl

/-- A text in which no match starts anywhere is left as it is. -/
theorem replaceAll_of_noMatch_anywhere (u : List Char)
    (h : ∀ s, s <:+ u → reMatchAt s = none) : replaceAll u = u := by
  induction u with
  | nil => exact replaceAll_nil
  | cons c u ih =>
    rw [replaceAll_of_noMatch c u (h _ (List.suffix_refl _)),
      ih fun s hs => h s (List.suffix_cons_iff.mpr (Or.inr hs))]

/-- A text without the substring `) (` is left as it is. -/
theorem replaceAll_of_noInfix (u : List Char) (h : ¬ [')', ' ', '('] <:+: u) :
    replaceAll u = u := by
  apply replaceAll_of_noMatch_anywhere
  intro s hs
  apply reMatchAt_none_of_not_prefix
  intro hp
  exact h (List.IsInfix.trans hp.isInfix hs.isInfix)

/-- A prefix without the substring `) (` is copied as it is when the text goes
on with `)`. -/
theorem replaceAll_append_of_noInfix (p u : List Char) (h : ¬ [')', ' ', '('] <:+: p)
    (hu : u.head? = some ')') : replaceAll (p ++ u) = p ++ replaceAll u := by
  induction p with
  | nil => rfl
  | cons c p ih =>
    have hp : ¬ [')', ' ', '('] <:+: p := fun hi => h (List.infix_cons hi)
    rw [List.cons_append, replaceAll_of_noMatch, ih hp]
    · rfl
    · apply reMatchAt_none_of_not_prefix
      rintro ⟨t, ht⟩
      match p, u, hu, ht with
      | [], d :: u, hu, ht =>
        simp only [List.head?_cons, Option.some.injEq] at hu
        simp only [List.cons_append, List.nil_append, List.cons.injEq] at ht
        rw [hu] at ht
        exact absurd ht.2.1 (by decide)
      | [x], d :: u, hu, ht =>
        simp only [List.head?_cons, Option.some.injEq] at hu
        simp only [List.cons_append, List.nil_append, List.cons.injEq] at ht
        rw [hu] at ht
        exact absurd ht.2.2.1 (by decide)
      | x :: y :: p, u, _, ht =>
        simp only [List.cons_append, List.nil_append, List.cons.injEq] at ht
        apply h
        refine ⟨[], p, ?_⟩
        rw [← ht.1, ← ht.2.1, ← ht.2.2.1]
        rfl

theorem reClass_iff (c : Char) : reClass c = true ↔ c ≠ ',' ∧ c ≠ '(' ∧ c ≠ ')' := by
  simp [reClass, and_assoc]

/-- Two stretches without `)` that are each followed by `)` in the same text
are the same stretch. -/
theorem append_close_inj :
    ∀ (a b r1 r2 : List Char), (∀ c ∈ a, c ≠ ')') → (∀ c ∈ b, c ≠ ')') →
      a ++ ')' :: r1 = b ++ ')' :: r2 → a = b
  | [], [], _, _, _, _, _ => rfl
  | [], d :: b, _, _, _, hb, h => by
    simp only [List.nil_append, List.cons_append, List.cons.injEq] at h
    exact absurd h.1.symm (hb d (List.mem_cons_self _ _))
  | c :: a, [], _, _, ha, _, h => by
    simp only [List.nil_append, List.cons_append, List.cons.injEq] at h
    exact absurd h.1 (ha c (List.mem_cons_self _ _))
  | c :: a, d :: b, r1, r2, ha, hb, h => by
    simp only [List.cons_append, List.cons.injEq] at h
    rw [h.1, append_close_inj a b r1 r2 (fun x hx => ha x (List.mem_cons_of_mem _ hx))
      (fun x hx => hb x (List.mem_cons_of_mem _ hx)) h.2]

/-- The rewrite of one parenthesized group, on characters. -/
theorem replaceAll_rewrite (p t s : List Char) (hp : ¬ [')', ' ', '('] <:+: p)
    (hs : ¬ [')', ' ', '('] <:+: s) (ht : t ≠ []) (hc : ∀ c ∈ t, reClass c = true) :
    replaceAll (p ++ ([')', ' ', '('] ++ t ++ [')', ' ', '{'] ++ s)) =
      p ++ ([')', ' '] ++ t ++ [' ', '{'] ++ s) := by
  rw [replaceAll_append_of_noInfix p ([')', ' ', '('] ++ t ++ [')', ' ', '{'] ++ s) hp rfl,
    replaceAll_of_match _ t s ((reMatchAt_eq_some_iff _ t s).mpr ⟨rfl, ht, hc⟩),
    replaceAll_of_noInfix s hs]

/-- A parenthesized group with a comma and no parenthesis is left as it is, on
characters. -/
theorem replaceAll_multi (p x s : List Char) (hp : ¬ [')', ' ', '('] <:+: p)
    (hs : ¬ [')', ' ', '('] <:+: s) (hx : ',' ∈ x) (hc : ∀ c ∈ x, c ≠ '(' ∧ c ≠ ')') :
    replaceAll (p ++ ([')', ' ', '('] ++ x ++ [')', ' ', '{'] ++ s)) =
      p ++ ([')', ' ', '('] ++ x ++ [')', ' ', '{'] ++ s) := by
  have hnone : reMatchAt ([')', ' ', '('] ++ x ++ [')', ' ', '{'] ++ s) = none := by
    cases hm : reMatchAt ([')', ' ', '('] ++ x ++ [')', ' ', '{'] ++ s) with
    | none => rfl
    | some r =>
      obtain ⟨g, rest⟩ := r
      obtain ⟨h1, _, h3⟩ := (reMatchAt_eq_some_iff _ g rest).mp hm
      simp only [List.cons_append, List.nil_append, List.append_assoc, List.cons.injEq,
        true_and] at h1
      have hxg : x = g := append_close_inj x g _ _ (fun c hc2 => (hc c hc2).2)
        (fun c hc2 => ((reClass_iff c).mp (h3 c hc2)).2.2) h1
      rw [hxg] at hx
      exact absurd rfl ((reClass_iff ',').mp (h3 ',' hx)).1
  have hx2 : ∀ c ∈ ' ' :: '(' :: x, c ≠ ')' := by
    intro c hc2
    simp only [List.mem_cons] at hc2
    rcases hc2 with rfl | rfl | hc2
    · decide
    · decide
    · exact (hc c hc2).2
  have hbrace : reMatchAt (')' :: ' ' :: '{' :: s) = none := by
    apply reMatchAt_none_of_not_prefix
    rintro ⟨t, ht⟩
    simp only [List.cons_append, List.nil_append, List.cons.injEq] at ht
    exact absurd ht.2.2.1 (by decide)
  have he : [')', ' ', '('] ++ x ++ [')', ' ', '{'] ++ s =
      ')' :: ((' ' :: '(' :: x) ++ (')' :: ' ' :: '{' :: s)) := by simp
  rw [replaceAll_append_of_noInfix p ([')', ' ', '('] ++ x ++ [')', ' ', '{'] ++ s) hp rfl]
  rw [he] at hnone ⊢
  rw [replaceAll_of_noMatch _ _ hnone, replaceAll_append_of_noClose _ _ hx2,
    replaceAll_of_noMatch _ _ hbrace, replaceAll_cons_of_ne ' ' _ (by decide),
    replaceAll_cons_of_ne '{' _ (by decide), replaceAll_of_noInfix s hs]

/-! ## The normalizer on strings -/

/-- C12 at the text `func f() (err error) {`: the substitution of
`customFprint` matches the parenthesized named result, the group being
`err error`, and removes the parentheses, so the text is not returned
unchanged. -/
theorem replaceAllString_named_result :
    replaceAllString "func f() (err error) \x7b" = "func f() err error \x7b" ∧
    replaceAllString "func f() (err error) \x7b" ≠ "func f() (err error) \x7b" := by
  have h : replaceAllString "func f() (err error) \x7b" = "func f() err error \x7b" := by
    apply String.ext
    exact replaceAll_rewrite "func f(".data "err error".data [] (by decide) (by decide)
      (by decide) (by decide)
  exact ⟨h, by rw [h]; decide⟩

/-- C13 (normalizer rewrite): for all strings `P`, `T`, `S` with `T` non-empty
and free of `,`, `(` and `)`, and with neither `P` nor `S` containing the
substring `) (`, the substitution of `customFprint` maps
`P ++ ") (" ++ T ++ ") {" ++ S` to `P ++ ") " ++ T ++ " {" ++ S`. -/
theorem replaceAllString_rewrite (P T S : String) (hT : T ≠ "")
    (hTc : ∀ c ∈ T.data, c ≠ ',' ∧ c ≠ '(' ∧ c ≠ ')')
    (hP : ¬ ") (".data <:+: P.data) (hS : ¬ ") (".data <:+: S.data) :
    replaceAllString (P ++ ") (" ++ T ++ ") \x7b" ++ S) = P ++ ") " ++ T ++ " \x7b" ++ S := by
  apply String.ext
  have ht : T.data ≠ [] := fun h => hT (String.ext h)
  have h := replaceAll_rewrite P.data T.data S.data hP hS ht
    (fun c hc => (reClass_iff c).mpr (hTc c hc))
  simpa [replaceAllString, String.data_append] using h

/-- The declaration `func Get(c echo.Context) (error) {` of the scenarios loses
the parentheses around `error`. -/
theorem replaceAllString_rewrite_witness :
    replaceAllString ("func Get(c echo.Context" ++ ") (" ++ "error" ++ ") \x7b" ++ "\n\x7d") =
      "func Get(c echo.Context" ++ ") " ++ "error" ++ " \x7b" ++ "\n\x7d" :=
  replaceAllString_rewrite "func Get(c echo.Context" "error" "\n\x7d" (by decide) (by decide)
    (by decide) (by decide)

/-- C14 (multi-field results): for every text `P ++ ") (" ++ X ++ ") {" ++ S`
in which `X` contains a comma and no parenthesis and neither `P` nor `S`
contains the substring `) (`, the substitution of `customFprint` returns the
text unchanged. -/
theorem replaceAllString_multi (P X S : String) (hX : ',' ∈ X.data)
    (hXc : ∀ c ∈ X.data, c ≠ '(' ∧ c ≠ ')')
    (hP : ¬ ") (".data <:+: P.data) (hS : ¬ ") (".data <:+: S.data) :
    replaceAllString (P ++ ") (" ++ X ++ ") \x7b" ++ S) = P ++ ") (" ++ X ++ ") \x7b" ++ S := by
  apply String.ext
  have h := replaceAll_multi P.data X.data S.data hP hS hX hXc
  simpa [replaceAllString, String.data_append] using h

/-- The text `func f() (User, error) {` is returned unchanged. -/
theorem replaceAllString_multi_witness :
    replaceAllString ("func f(" ++ ") (" ++ "User, error" ++ ") \x7b" ++ "") =
      "func f(" ++ ") (" ++ "User, error" ++ ") \x7b" ++ "" :=
  replaceAllString_multi "func f(" "User, error" "" (by decide) (by decide)
    (by decide) (by decide)

/-! ## The normalizer applied twice -/

/-- A first output character other than `)` was copied from the input. -/
theorem replaceAll_cons_inv (u : List Char) (a : Char) (out : List Char)
    (h : replaceAll u = a :: out) (ha : a ≠ ')') :
    ∃ u2, u = a :: u2 ∧ replaceAll u2 = out := by
  cases u with
  | nil =>
    rw [replaceAll_nil] at h
    cases h
  | cons c u2 =>
    cases hm : reMatchAt (c :: u2) with
    | some r =>
      obtain ⟨g, rest⟩ := r
      rw [replaceAll_of_match _ g rest hm] at h
      simp only [List.cons_append, List.cons.injEq] at h
      exact absurd h.1.symm ha
    | none =>
      rw [replaceAll_of_noMatch c u2 hm] at h
      simp only [List.cons.injEq] at h
      exact ⟨u2, by rw [h.1], h.2⟩

/-- A first stretch of output without `)` was copied from the input. -/
theorem replaceAll_append_inv :
    ∀ (x u out : List Char), (∀ c ∈ x, c ≠ ')') → replaceAll u = x ++ out →
      ∃ u2, u = x ++ u2 ∧ replaceAll u2 = out
  | [], u, _, _, h => ⟨u, rfl, h⟩
  | a :: x, u, out, hx, h => by
    obtain ⟨u1, hu1, h1⟩ := replaceAll_cons_inv u a (x ++ out) h (hx a (List.mem_cons_self _ _))
    obtain ⟨u2, hu2, h2⟩ := replaceAll_append_inv x u1 out
      (fun c hc => hx c (List.mem_cons_of_mem _ hc)) h1
    exact ⟨u2, by rw [hu1, hu2]; rfl, h2⟩

/-- Where the input has no match at its first character, and `) ({` does not
occur in it, the output has no match at its first character either. -/
theorem reMatchAt_replaceAll_none (c : Char) (cs : List Char)
    (hm : reMatchAt (c :: cs) = none) (hi : ¬ [')', ' ', '(', '{'] <:+: c :: cs) :
    reMatchAt (c :: replaceAll cs) = none := by
  cases hm2 : reMatchAt (c :: replaceAll cs) with
  | none => rfl
  | some r =>
    exfalso
    obtain ⟨y, rest⟩ := r
    obtain ⟨h1, hy, hyc⟩ := (reMatchAt_eq_some_iff _ y rest).mp hm2
    simp only [List.cons_append, List.nil_append, List.append_assoc, List.cons.injEq] at h1
    obtain ⟨hc, h1⟩ := h1
    have hx : ∀ d ∈ ' ' :: '(' :: y, d ≠ ')' := by
      intro d hd
      simp only [List.mem_cons] at hd
      rcases hd with rfl | rfl | hd
      · decide
      · decide
      · exact ((reClass_iff d).mp (hyc d hd)).2.2
    obtain ⟨cs2, hcs, h2⟩ := replaceAll_append_inv (' ' :: '(' :: y) cs
      (')' :: ' ' :: '{' :: rest) hx (by simpa using h1)
    cases cs2 with
    | nil =>
      rw [replaceAll_nil] at h2
      cases h2
    | cons d cs3 =>
      cases hm3 : reMatchAt (d :: cs3) with
      | some r3 =>
        obtain ⟨t, r⟩ := r3
        obtain ⟨h3, ht, _⟩ := (reMatchAt_eq_some_iff _ t r).mp hm3
        rw [replaceAll_of_match _ t r hm3] at h2
        cases t with
        | nil => exact ht rfl
        | cons t0 t =>
          simp only [List.cons_append, List.nil_append, List.cons.injEq] at h2
          apply hi
          refine ⟨c :: ' ' :: '(' :: y, t ++ [')', ' ', '{'] ++ r, ?_⟩
          rw [hcs, h3, h2.2.2.1]
          simp
      | none =>
        rw [replaceAll_of_noMatch d cs3 hm3] at h2
        simp only [List.cons.injEq] at h2
        obtain ⟨hd, h2⟩ := h2
        obtain ⟨u, hu, _⟩ := replaceAll_append_inv [' ', '{'] cs3 rest (by decide) h2
        have : reMatchAt (c :: cs) = some (y, u) := by
          apply (reMatchAt_eq_some_iff _ y u).mpr
          refine ⟨?_, hy, hyc⟩
          rw [hcs, hd, hu, hc]
          simp
        rw [hm] at this
        cases this

/-- No match starts in a text of the form `x ++ y` where `x` has no `)` and no
match starts in `y`. -/
theorem noMatch_append (x y : List Char) (hx : ∀ c ∈ x, c ≠ ')')
    (hy : ∀ s, s <:+ y → reMatchAt s = none) :
    ∀ s, s <:+ x ++ y → reMatchAt s = none := by
  induction x with
  | nil => exact hy
  | cons c x ih =>
    intro s hs
    rcases List.suffix_cons_iff.mp hs with rfl | hs2
    · apply reMatchAt_none_of_not_prefix
      rintro ⟨t, ht⟩
      simp only [List.cons_append, List.cons.injEq] at ht
      exact hx c (List.mem_cons_self _ _) ht.1.symm
    · exact ih (fun d hd => hx d (List.mem_cons_of_mem _ hd)) s hs2

/-- In a text without `) ({`, no match starts anywhere in the output of the
substitution. -/
theorem replaceAll_noMatch_anywhere :
    ∀ (n : Nat) (t : List Char), t.length ≤ n → ¬ [')', ' ', '(', '{'] <:+: t →
      ∀ s, s <:+ replaceAll t → reMatchAt s = none
  | _, [], _, _ => by
    intro s hs
    rw [replaceAll_nil] at hs
    rw [List.suffix_nil.mp hs]
    rfl
  | 0, _ :: _, hn, _ => by simp at hn
  | n + 1, c :: cs, hn, hi => by
    intro s hs
    have hcs : ¬ [')', ' ', '(', '{'] <:+: cs := fun h => hi (List.infix_cons h)
    cases hm : reMatchAt (c :: cs) with
    | some r =>
      obtain ⟨g, rest⟩ := r
      obtain ⟨h1, hg, hgc⟩ := (reMatchAt_eq_some_iff _ g rest).mp hm
      have hsuf : rest <:+ c :: cs := ⟨[')', ' ', '('] ++ g ++ [')', ' ', '{'], h1.symm⟩
      have hlen : rest.length ≤ n := by
        have := congrArg List.length h1
        simp only [List.length_cons, List.length_append, List.length_nil] at this hn
        omega
      have hrest := replaceAll_noMatch_anywhere n rest hlen
        (fun h => hi (List.IsInfix.trans h hsuf.isInfix))
      rw [replaceAll_of_match _ g rest hm] at hs
      have hx : ∀ d ∈ ' ' :: (g ++ [' ', '{']), d ≠ ')' := by
        intro d hd
        simp only [List.mem_cons, List.mem_append, List.mem_nil_iff, or_false] at hd
        rcases hd with rfl | hd | rfl | rfl
        · decide
        · exact ((reClass_iff d).mp (hgc d hd)).2.2
        · decide
        · decide
      have hs2 : s <:+ ')' :: ((' ' :: (g ++ [' ', '{'])) ++ replaceAll rest) := by
        simpa using hs
      rcases List.suffix_cons_iff.mp hs2 with rfl | hs3
      · apply reMatchAt_none_of_not_prefix
        rintro ⟨u, hu⟩
        cases g with
        | nil => exact hg rfl
        | cons g0 g =>
          simp only [List.cons_append, List.nil_append, List.cons.injEq] at hu
          exact ((reClass_iff g0).mp (hgc g0 (List.mem_cons_self _ _))).2.1 hu.2.2.1.symm
      · exact noMatch_append _ _ hx hrest s hs3
    | none =>
      rw [replaceAll_of_noMatch c cs hm] at hs
      rcases List.suffix_cons_iff.mp hs with rfl | hs2
      · exact reMatchAt_replaceAll_none c cs hm hi
      · exact replaceAll_noMatch_anywhere n cs (by simpa using hn) hcs s hs2

/-- On characters: in a text without `) ({` a second substitution changes
nothing. -/
theorem replaceAll_replaceAll (t : List Char) (hi : ¬ [')', ' ', '(', '{'] <:+: t) :
    replaceAll (replaceAll t) = replaceAll t :=
  replaceAll_of_noMatch_anywhere _ (replaceAll_noMatch_anywhere t.length t (Nat.le_refl _) hi)

/-- C18 fails at the text `) (Y) ({) {`: the first substitution gives
`) (Y) { {`, in which the group `(Y)` is now followed by `) {`, and the second
substitution gives `) Y { {`. -/
theorem replaceAllString_twice_counterexample :
    replaceAllString ") (Y) (\x7b) \x7b" = ") (Y) \x7b \x7b" ∧
    replaceAllString (replaceAllString ") (Y) (\x7b) \x7b") = ") Y \x7b \x7b" ∧
    replaceAllString (replaceAllString ") (Y) (\x7b) \x7b") ≠ replaceAllString ") (Y) (\x7b) \x7b" := by
  have h1 : replaceAllString ") (Y) (\x7b) \x7b" = ") (Y) \x7b \x7b" := by
    apply String.ext
    show replaceAll [')', ' ', '(', 'Y', ')', ' ', '(', '{', ')', ' ', '{'] = _
    rw [replaceAll_of_noMatch _ _ (by decide), replaceAll_cons_of_ne _ _ (by decide),
      replaceAll_cons_of_ne _ _ (by decide), replaceAll_cons_of_ne _ _ (by decide),
      replaceAll_of_match _ ['{'] [] (by decide), replaceAll_nil]
    rfl
  have h2 : replaceAllString ") (Y) \x7b \x7b" = ") Y \x7b \x7b" := by
    apply String.ext
    exact replaceAll_rewrite [] ['Y'] [' ', '{'] (by decide) (by decide) (by decide)
      (by decide)
  refine ⟨h1, by rw [h1, h2], ?_⟩
  rw [h1, h2]
  decide

/-- C18 as amended (normalizer idempotence): for every text in which `) ({`
does not occur, applying the substitution of `customFprint` to the already
substituted text gives the same text again. -/
theorem replaceAllString_idempotent (t : String) (h : ¬ ") (\x7b".data <:+: t.data) :
    replaceAllString (replaceAllString t) = replaceAllString t := by
  apply String.ext
  exact replaceAll_replaceAll t.data h

/-- The text `func Get(c echo.Context) (error) {` does not contain `) ({`, and
a second substitution leaves `func Get(c echo.Context) error {` as it is. -/
theorem replaceAllString_idempotent_witness :
    ¬ ") (\x7b".data <:+: "func Get(c echo.Context) (error) \x7b".data ∧
    replaceAllString (replaceAllString "func Get(c echo.Context) (error) \x7b") =
      replaceAllString "func Get(c echo.Context) (error) \x7b" :=
  ⟨by decide, replaceAllString_idempotent "func Get(c echo.Context) (error) \x7b" (by decide)⟩

/-! ## The traversal: sizes -/

theorem Node.size_pos (n : Node) : 0 < n.size := by
  cases n <;> simp only [Node.size] <;> omega

theorem sizeFuncType_eq (ft : FuncType Node) :
    sizeFuncType ft =
      sizeOptFieldList ft.TypeParams + sizeOptFieldList ft.Params +
        sizeOptFieldList ft.Results := by
  cases ft
  simp only [sizeFuncType]

theorem sizeFieldList_eq (fl : FieldList Node) : sizeFieldList fl = sizeFields fl.List := by
  cases fl
  simp only [sizeFieldList]

theorem sizeField_eq (f : Field Node) : sizeField f = f.Typ.size := by
  cases f
  simp only [sizeField]

theorem sizeFields_groupCons_le (Fprint : Node → String) (f : Field Node)
    (out : List (Field Node)) :
    sizeFields (groupCons Fprint f out) ≤ sizeField f + sizeFields out := by
  cases out with
  | nil => simp [groupCons, sizeFields, sizeField_eq]
  | cons g out =>
    by_cases hk : typeString Fprint f.Typ = typeString Fprint g.Typ
    · simp only [groupCons, if_pos hk, sizeFields, sizeField_eq]
      omega
    · simp only [groupCons, if_neg hk, sizeFields, sizeField_eq]
      omega

theorem sizeFields_merge_le (Fprint : Node → String) (l : List (Field Node)) :
    sizeFields (mergeSameTypeFields Fprint l) ≤ sizeFields l := by
  rw [mergeSameTypeFields_eq_grouped]
  induction l with
  | nil => simp [grouped]
  | cons f l ih =>
    have := sizeFields_groupCons_le Fprint f (grouped Fprint l)
    show sizeFields (groupCons Fprint f (grouped Fprint l)) ≤ sizeFields (f :: l)
    simp only [sizeFields]
    omega

theorem sizeFuncType_processFuncType_le (Fprint : Node → String) (ft : FuncType Node) :
    sizeFuncType (processFuncType Fprint ft) ≤ sizeFuncType ft := by
  rw [sizeFuncType_eq, sizeFuncType_eq, processFuncType_params, processFuncType_results,
    processFuncType_typeParams]
  have hp : sizeOptFieldList (ft.Params.map fun params =>
      { params with List := mergeSameTypeFields Fprint params.List }) ≤
      sizeOptFieldList ft.Params := by
    cases ft.Params with
    | none => exact Nat.le_refl _
    | some params =>
      simp only [Option.map_some', sizeOptFieldList, sizeFieldList_eq]
      exact sizeFields_merge_le Fprint params.List
  have hr : sizeOptFieldList (ft.Results.map fun results =>
      { (if results.List.length = 1 ∧
            (results.List.head?.map fun f => f.Names.length) = some 0 then
          { results with Opening := NoPos, Closing := NoPos }
        else results) with
        List := mergeSameTypeFields Fprint results.List }) ≤
      sizeOptFieldList ft.Results := by
    cases ft.Results with
    | none => exact Nat.le_refl _
    | some results =>
      simp only [Option.map_some', sizeOptFieldList, sizeFieldList_eq]
      exact sizeFields_merge_le Fprint results.List
  omega

theorem sizeField_method_le (Fprint : Node → String) (f : Field Node) :
    sizeField (rewriteFuncParams.method Fprint f) ≤ sizeField f := by
  unfold rewriteFuncParams.method
  split
  · next ft hft =>
    have := sizeFuncType_processFuncType_le Fprint ft
    simp only [sizeField_eq, hft, Node.size]
    omega
  · exact Nat.le_refl _

theorem sizeFields_map_method_le (Fprint : Node → String) (l : List (Field Node)) :
    sizeFields (l.map (rewriteFuncParams.method Fprint)) ≤ sizeFields l := by
  induction l with
  | nil => exact Nat.le_refl _
  | cons f l ih =>
    have := sizeField_method_le Fprint f
    simp only [List.map_cons, sizeFields]
    omega

theorem size_visit_le (Fprint : Node → String) (n : Node) :
    (rewriteFuncParams.visit Fprint n).size ≤ n.size := by
  cases n with
  | funcDecl doc recv name typ body =>
    have := sizeFuncType_processFuncType_le Fprint typ
    simp only [rewriteFuncParams.visit, Node.size]
    omega
  | interfaceType pos methods incomplete =>
    have := sizeFields_map_method_le Fprint methods.List
    simp only [rewriteFuncParams.visit, Node.size, sizeFieldList_eq]
    omega
  | funcType typ => exact Nat.le_refl _
  | other kind children => exact Nat.le_refl _

/-! ## The traversal: enough fuel -/

theorem map_nodes_congr (g h : Node → Node) (cs : List Node)
    (hgh : ∀ c : Node, c.size ≤ sizeNodes cs → g c = h c) : cs.map g = cs.map h := by
  induction cs with
  | nil => rfl
  | cons c cs ih =>
    simp only [sizeNodes] at hgh
    rw [List.map_cons, List.map_cons, hgh c (by omega), ih fun d hd => hgh d (by omega)]

theorem map_optNode_congr (g h : Node → Node) (o : Option Node)
    (hgh : ∀ c : Node, c.size ≤ sizeOptNode o → g c = h c) : o.map g = o.map h := by
  cases o with
  | none => rfl
  | some c =>
    simp only [sizeOptNode] at hgh
    rw [Option.map_some', Option.map_some', hgh c (Nat.le_refl _)]

theorem map_fields_congr (g h : Node → Node) (l : List (Field Node))
    (hgh : ∀ c : Node, c.size ≤ sizeFields l → g c = h c) :
    l.map (Field.mapType g) = l.map (Field.mapType h) := by
  induction l with
  | nil => rfl
  | cons f l ih =>
    simp only [sizeFields, sizeField_eq] at hgh
    rw [List.map_cons, List.map_cons, ih fun d hd => hgh d (by omega)]
    simp only [Field.mapType, hgh f.Typ (by omega)]

theorem mapTypes_fieldList_congr (g h : Node → Node) (fl : FieldList Node)
    (hgh : ∀ c : Node, c.size ≤ sizeFieldList fl → g c = h c) :
    fl.mapTypes g = fl.mapTypes h := by
  rw [sizeFieldList_eq] at hgh
  simp only [FieldList.mapTypes, map_fields_congr g h fl.List hgh]

theorem mapTypes_optFieldList_congr (g h : Node → Node) (o : Option (FieldList Node))
    (hgh : ∀ c : Node, c.size ≤ sizeOptFieldList o → g c = h c) :
    o.map (FieldList.mapTypes g) = o.map (FieldList.mapTypes h) := by
  cases o with
  | none => rfl
  | some fl =>
    simp only [sizeOptFieldList] at hgh
    rw [Option.map_some', Option.map_some', mapTypes_fieldList_congr g h fl hgh]

theorem mapTypes_funcType_congr (g h : Node → Node) (ft : FuncType Node)
    (hgh : ∀ c : Node, c.size ≤ sizeFuncType ft → g c = h c) :
    ft.mapTypes g = ft.mapTypes h := by
  rw [sizeFuncType_eq] at hgh
  simp only [FuncType.mapTypes,
    mapTypes_optFieldList_congr g h ft.TypeParams fun c hc => hgh c (by omega),
    mapTypes_optFieldList_congr g h ft.Params fun c hc => hgh c (by omega),
    mapTypes_optFieldList_congr g h ft.Results fun c hc => hgh c (by omega)]

/-- Two functions that agree on all smaller trees agree on the children of a
node. -/
theorem mapChildren_congr (g h : Node → Node) (m : Node)
    (hgh : ∀ c : Node, c.size < m.size → g c = h c) : m.mapChildren g = m.mapChildren h := by
  cases m with
  | funcDecl doc recv name typ body =>
    simp only [Node.size] at hgh
    simp only [Node.mapChildren,
      mapTypes_optFieldList_congr g h recv fun c hc => hgh c (by omega),
      mapTypes_funcType_congr g h typ fun c hc => hgh c (by omega),
      map_optNode_congr g h body fun c hc => hgh c (by omega)]
  | interfaceType pos methods incomplete =>
    simp only [Node.size] at hgh
    simp only [Node.mapChildren,
      mapTypes_fieldList_congr g h methods fun c hc => hgh c (by omega)]
  | funcType typ =>
    simp only [Node.size] at hgh
    simp only [Node.mapChildren, mapTypes_funcType_congr g h typ fun c hc => hgh c (by omega)]
  | other kind children =>
    simp only [Node.size] at hgh
    simp only [Node.mapChildren, map_nodes_congr g h children fun c hc => hgh c (by omega)]

/-- With fuel of at least the size of the tree the traversal does not depend on
the fuel: it never runs out. -/
theorem Inspect_stable (Fprint : Node → String) :
    ∀ (k1 k2 : Nat) (n : Node), n.size ≤ k1 → n.size ≤ k2 →
      Inspect (rewriteFuncParams.visit Fprint) k1 n =
        Inspect (rewriteFuncParams.visit Fprint) k2 n
  | 0, _, n, h1, _ => absurd h1 (by have := n.size_pos; omega)
  | _ + 1, 0, n, _, h2 => absurd h2 (by have := n.size_pos; omega)
  | k1 + 1, k2 + 1, n, h1, h2 => by
    have hv := size_visit_le Fprint n
    simp only [Inspect]
    apply mapChildren_congr
    intro c hc
    exact Inspect_stable Fprint k1 k2 c (by omega) (by omega)

/-- The traversal equation of `rewriteFuncParams`, without fuel: the closure is
applied to the node, then `rewriteFuncParams` to the children of the updated
node. -/
theorem rewriteFuncParams_eq (Fprint : Node → String) (n : Node) :
    rewriteFuncParams Fprint n =
      (rewriteFuncParams.visit Fprint n).mapChildren (rewriteFuncParams Fprint) := by
  have hv := size_visit_le Fprint n
  have hpos := n.size_pos
  obtain ⟨k, hk⟩ : ∃ k, n.size = k + 1 := ⟨n.size - 1, by omega⟩
  unfold rewriteFuncParams
  rw [hk]
  simp only [Inspect]
  apply mapChildren_congr
  intro c hc
  exact Inspect_stable Fprint k c.size c (by omega) (Nat.le_refl _)

/-! ## The traversal: trees without a function declaration or interface method -/

theorem map_nodes_of_noTarget (g : Node → Node) (cs : List Node)
    (hg : ∀ c : Node, c.hasTarget = false → g c = c) (h : hasTargetNodes cs = false) :
    cs.map g = cs := by
  induction cs with
  | nil => rfl
  | cons c cs ih =>
    simp only [hasTargetNodes, Bool.or_eq_false_iff] at h
    rw [List.map_cons, hg c h.1, ih h.2]

theorem map_fields_of_noTarget (g : Node → Node) (l : List (Field Node))
    (hg : ∀ c : Node, c.hasTarget = false → g c = c) (h : hasTargetFields l = false) :
    l.map (Field.mapType g) = l := by
  induction l with
  | nil => rfl
  | cons f l ih =>
    obtain ⟨doc, names, typ, tag, comment⟩ := f
    simp only [hasTargetFields, Bool.or_eq_false_iff] at h
    rw [List.map_cons, ih h.2]
    simp only [Field.mapType, hg typ h.1]

theorem mapTypes_optFieldList_of_noTarget (g : Node → Node) (o : Option (FieldList Node))
    (hg : ∀ c : Node, c.hasTarget = false → g c = c) (h : hasTargetOptFieldList o = false) :
    o.map (FieldList.mapTypes g) = o := by
  cases o with
  | none => rfl
  | some fl =>
    obtain ⟨op, fields, cl⟩ := fl
    simp only [hasTargetOptFieldList] at h
    simp only [Option.map_some', FieldList.mapTypes, map_fields_of_noTarget g fields hg h]

theorem mapTypes_funcType_of_noTarget (g : Node → Node) (ft : FuncType Node)
    (hg : ∀ c : Node, c.hasTarget = false → g c = c) (h : hasTargetFuncType ft = false) :
    ft.mapTypes g = ft := by
  obtain ⟨fn, tp, params, results⟩ := ft
  simp only [hasTargetFuncType, Bool.or_eq_false_iff] at h
  simp only [FuncType.mapTypes, mapTypes_optFieldList_of_noTarget g tp hg h.1.1,
    mapTypes_optFieldList_of_noTarget g params hg h.1.2,
    mapTypes_optFieldList_of_noTarget g results hg h.2]

theorem method_of_not_funcTyped (Fprint : Node → String) (f : Field Node)
    (h : isFuncTyped f = false) : rewriteFuncParams.method Fprint f = f := by
  unfold rewriteFuncParams.method
  split
  · next ft hft => simp [isFuncTyped, hft] at h
  · rfl

theorem visit_of_noTarget (Fprint : Node → String) (n : Node) (h : n.hasTarget = false) :
    rewriteFuncParams.visit Fprint n = n := by
  cases n with
  | funcDecl doc recv name typ body => simp [Node.hasTarget] at h
  | interfaceType pos methods incomplete =>
    obtain ⟨op, fields, cl⟩ := methods
    simp only [Node.hasTarget, Bool.or_eq_false_iff, List.any_eq_false] at h
    have hmap : fields.map (rewriteFuncParams.method Fprint) = fields := by
      conv_rhs => rw [← List.map_id fields]
      apply List.map_congr_left
      intro f hf
      exact method_of_not_funcTyped Fprint f (by simpa using h.1 f hf)
    simp only [rewriteFuncParams.visit, hmap]
  | funcType typ => rfl
  | other kind children => rfl

theorem mapChildren_of_noTarget (g : Node → Node) (n : Node)
    (hg : ∀ c : Node, c.hasTarget = false → g c = c) (h : n.hasTarget = false) :
    n.mapChildren g = n := by
  cases n with
  | funcDecl doc recv name typ body => simp [Node.hasTarget] at h
  | interfaceType pos methods incomplete =>
    obtain ⟨op, fields, cl⟩ := methods
    simp only [Node.hasTarget, Bool.or_eq_false_iff] at h
    simp only [Node.mapChildren, FieldList.mapTypes, map_fields_of_noTarget g fields hg h.2]
  | funcType typ =>
    simp only [Node.hasTarget] at h
    simp only [Node.mapChildren, mapTypes_funcType_of_noTarget g typ hg h]
  | other kind children =>
    simp only [Node.hasTarget] at h
    simp only [Node.mapChildren, map_nodes_of_noTarget g children hg h]

theorem Inspect_of_noTarget (Fprint : Node → String) :
    ∀ (fuel : Nat) (n : Node), n.hasTarget = false →
      Inspect (rewriteFuncParams.visit Fprint) fuel n = n
  | 0, _, _ => rfl
  | fuel + 1, n, h => by
    simp only [Inspect, visit_of_noTarget Fprint n h]
    exact mapChildren_of_noTarget _ n (Inspect_of_noTarget Fprint fuel) h

/-! ## The signature locator -/

theorem rewriteFuncParams_funcType (Fprint : Node → String) (typ : FuncType Node) :
    rewriteFuncParams Fprint (Node.funcType typ) =
      Node.funcType (typ.mapTypes (rewriteFuncParams Fprint)) := by
  rw [rewriteFuncParams_eq]
  rfl

theorem rewriteFuncParams_interfaceType (Fprint : Node → String) (pos : Pos)
    (methods : FieldList Node) (incomplete : Bool) :
    rewriteFuncParams Fprint (Node.interfaceType pos methods incomplete) =
      Node.interfaceType pos
        { Opening := methods.Opening,
          List := methods.List.map fun method =>
            match method.Typ with
            | Node.funcType funcType =>
              { method with
                Typ := Node.funcType
                  ((processFuncType Fprint funcType).mapTypes (rewriteFuncParams Fprint)) }
            | typ => { method with Typ := rewriteFuncParams Fprint typ },
          Closing := methods.Closing }
        incomplete := by
  rw [rewriteFuncParams_eq]
  simp only [rewriteFuncParams.visit, Node.mapChildren, FieldList.mapTypes, List.map_map]
  congr 2
  apply List.map_congr_left
  intro method _
  obtain ⟨doc, names, typ, tag, comment⟩ := method
  cases typ with
  | funcType funcType =>
    simp only [Function.comp, rewriteFuncParams.method, Field.mapType,
      rewriteFuncParams_funcType]
  | funcDecl d r nm t b => rfl
  | interfaceType p m i => rfl
  | other k c => rfl

theorem rewriteFuncParams_of_noTarget (Fprint : Node → String) (n : Node)
    (h : n.hasTarget = false) : rewriteFuncParams Fprint n = n :=
  Inspect_of_noTarget Fprint n.size n h

/-- C17 (signature location): `rewriteFuncParams` replaces the signature of a
function declaration by `processFuncType` of it, and the signature of every
interface member whose type is a function type by `processFuncType` of it, in
both cases applied once and followed only by the traversal of the type
expressions inside the signature; a member that is not function-typed keeps its
names and has only its type traversed; a function type elsewhere and any other
node keep their shape and have only their children traversed; and a tree that
contains no function declaration and no interface type with a function-typed
member, such as an embedded interface name, is returned unchanged. -/
theorem rewriteFuncParams_spec (Fprint : Node → String) :
    (∀ doc recv name typ body,
      rewriteFuncParams Fprint (Node.funcDecl doc recv name typ body) =
        Node.funcDecl doc (recv.map (FieldList.mapTypes (rewriteFuncParams Fprint))) name
          ((processFuncType Fprint typ).mapTypes (rewriteFuncParams Fprint))
          (body.map (rewriteFuncParams Fprint))) ∧
    (∀ pos methods incomplete,
      rewriteFuncParams Fprint (Node.interfaceType pos methods incomplete) =
        Node.interfaceType pos
          { Opening := methods.Opening,
            List := methods.List.map fun method =>
              match method.Typ with
              | Node.funcType funcType =>
                { method with
                  Typ := Node.funcType
                    ((processFuncType Fprint funcType).mapTypes (rewriteFuncParams Fprint)) }
              | typ => { method with Typ := rewriteFuncParams Fprint typ },
            Closing := methods.Closing }
          incomplete) ∧
    (∀ typ, rewriteFuncParams Fprint (Node.funcType typ) =
      Node.funcType (typ.mapTypes (rewriteFuncParams Fprint))) ∧
    (∀ kind children, rewriteFuncParams Fprint (Node.other kind children) =
      Node.other kind (children.map (rewriteFuncParams Fprint))) ∧
    (∀ n : Node, n.hasTarget = false → rewriteFuncParams Fprint n = n) := by
  refine ⟨fun doc recv name typ body => ?_, rewriteFuncParams_interfaceType Fprint,
    rewriteFuncParams_funcType Fprint, fun kind children => ?_,
    rewriteFuncParams_of_noTarget Fprint⟩
  · rw [rewriteFuncParams_eq]
    rfl
  · rw [rewriteFuncParams_eq]
    rfl

/-- The embedded interface name `io.Reader` contains nothing that the closure
acts on and is returned unchanged. -/
theorem rewriteFuncParams_spec_witness :
    (identNode "io.Reader").hasTarget = false ∧
    rewriteFuncParams renderIdent (identNode "io.Reader") = identNode "io.Reader" :=
  ⟨rfl, (rewriteFuncParams_spec renderIdent).2.2.2.2 (identNode "io.Reader") rfl⟩

/-- The interface `interface { io.Reader; Swap(int, int) (int, int) }` after
`rewriteFuncParams`: the embedded `io.Reader` is as before, and the signature of
`Swap` is the one `processFuncType` returns when applied once, with the markers
16 and 25 of its result list kept. -/
theorem rewriteFuncParams_embeddingInterface :
    rewriteFuncParams renderIdent embeddingInterface =
      Node.interfaceType 1
        { Opening := 11,
          List :=
            [{ Typ := identNode "io.Reader" },
             { Names := [{ Name := "Swap" }],
               Typ := Node.funcType
                { Params := some
                    { Opening := 5, List := [{ Typ := identNode "int" }], Closing := 14 },
                  Results := some
                    { Opening := 16, List := [{ Typ := identNode "int" }],
                      Closing := 25 } } }],
          Closing := 60 }
        false := by
  have hleaf : ∀ text, rewriteFuncParams renderIdent (identNode text) = identNode text :=
    fun text => rewriteFuncParams_of_noTarget renderIdent _ rfl
  rw [embeddingInterface, rewriteFuncParams_interfaceType]
  simp [processFuncType, mergeSameTypeFields_eq_grouped, grouped, groupCons, typeString,
    renderIdent, identNode, FuncType.mapTypes, FieldList.mapTypes, Field.mapType, NoPos]
  exact ⟨hleaf "io.Reader", hleaf "int"⟩

/-- The text that `customFprint` writes is the substitution applied to the
emitted text, and an error of the emitter is returned as it is. -/
theorem customFprint_eq {File Err : Type} (cfgFprint : File → Except Err String)
    (file : File) :
    (∀ buf, cfgFprint file = Except.ok buf →
      customFprint cfgFprint file = Except.ok (replaceAllString buf)) ∧
    (∀ err, cfgFprint file = Except.error err →
      customFprint cfgFprint file = Except.error err) := by
  constructor
  · intro buf h
    simp only [customFprint, h]
  · intro err h
    simp only [customFprint, h]

/-! ## The normalizer and an interface method -/

/-- In the text of an interface method the parenthesized result is followed by
the end of the line, not by ` {`, and the substitution of `customFprint`
leaves the line as it is: after `processFuncType` the text of
`Get(c echo.Context) (error)` is bare only if the emitter writes it bare. -/
theorem replaceAllString_interface_method :
    replaceAllString "\tGet(c echo.Context) (error)\n" = "\tGet(c echo.Context) (error)\n" ∧
    replaceAllString "\tGet(c echo.Context) error\n" = "\tGet(c echo.Context) error\n" := by
  constructor
  · apply String.ext
    show replaceAll ("\tGet(c echo.Context".data ++ ") (error)\n".data) = _
    rw [replaceAll_append_of_noInfix "\tGet(c echo.Context".data ") (error)\n".data
      (by decide) rfl]
    show _ ++ replaceAll (')' :: " (error)\n".data) = _
    rw [replaceAll_of_noMatch _ _ (by decide), replaceAll_of_noInfix _ (by decide)]
    rfl
  · apply String.ext
    exact replaceAll_of_noInfix _ (by decide)

end GofmtGroup
